import Mathlib

/-!
# A verification development for the kmcp index / search / profile pipeline

This file gives a shallow embedding, in Lean 4, of the algorithmic cores of
the kmcp command-line tool (Go source):

* the profiler (`kmcp profile`): per-line parsing with threshold filters,
  streaming per-query aggregation of match results into per-target and
  per-fragment counters, the post-stream target filter, and the output
  comparator (`Targets.Less`);
* the index builder (`kmcp index`): the batching state machine that groups
  reference k-mer files into blocks using the two thresholds
  `--block-max-kmers-t1` / `--block-max-kmers-t2`, and the Bloom-signature
  fill loop that ORs bits into the 8-column byte planes;
* the search command (`kmcp search`): the startup check of the query-coverage
  threshold against the database FPR, the serializer that restores input
  order of query results, and the shape of output records for matched and
  unmatched queries.

Go machine integers are modelled as `Nat`/`Int` (with explicit `% 2^64`
where wrap-around matters), Go `float64` values as `ℚ` (the code only adds,
divides and compares them; rounding is not at stake in any statement below),
and fatal `checkError` aborts as `Except.error`.  Go maps keyed by
`xxh3.HashString name` are modelled as association lists keyed by the name
itself (hash injectivity assumed).  Go slices are Lean lists; out-of-range
writes (a Go panic) are modelled as no-ops and every theorem that touches an
index carries an in-bounds hypothesis.
-/

namespace Kmcp

/-! ## Profiler: data model (struct `MatchResult`, struct `Target`) -/

/-- One parsed line of the search output, mirroring Go `type MatchResult`
(fields `Query, QLen, QKmers, FPR, Hits, Target, FragIdx, IdxNum, MKmers,
QCov`).  Integers parsed by `strconv.Atoi` are `Int`, floats are `ℚ`. -/
structure MatchResult where
  Query : String
  QLen : Int
  QKmers : Int
  FPR : ℚ
  Hits : Int
  Target : String
  FragIdx : Int
  IdxNum : Int
  MKmers : Int
  QCov : ℚ
deriving Repr, DecidableEq, Inhabited

/-- Per-reference accumulator, mirroring Go `type Target` (fields `Name,
Match, UniqMatch, FragLens, SumUniqMatch, FragsProp, MeanAbundance`). -/
structure Target where
  Name : String
  Match : List ℚ
  UniqMatch : List ℕ
  FragLens : List ℕ
  SumUniqMatch : ℕ
  FragsProp : ℚ
  MeanAbundance : ℚ
deriving Repr, DecidableEq, Inhabited

/-- Update the element at index `i` of a list (Go `slice[i] = f slice[i]`). -/
def updAt {α : Type} : List α → ℕ → (α → α) → List α
  | [], _, _ => []
  | a :: l, 0, f => f a :: l
  | a :: l, n + 1, f => a :: updAt l n f

/-- Indexing with a Go `int`: negative or out-of-range indices panic in Go;
the model leaves the list unchanged and theorems add in-bounds hypotheses. -/
def updAtZ {α : Type} (l : List α) (i : Int) (f : α → α) : List α :=
  if 0 ≤ i then updAt l i.toNat f else l

/-- The profile accumulator `profile map[uint64]*Target`, keyed here by the
target name rather than by `xxh3.HashString name`. -/
abbrev Profile : Type := List (String × Target)

/-- Lookup in a string-keyed association list (Go map read,
`t, ok = profile[h]`). -/
def lookupT {α : Type} : List (String × α) → String → Option α
  | [], _ => none
  | (k, t) :: rest, q => if k = q then some t else lookupT rest q

/-- Store into a string-keyed association list (Go map write,
`profile[h] = &t0` / pointer update). -/
def storeT {α : Type} : List (String × α) → String → α → List (String × α)
  | [], k, t => [(k, t)]
  | (k', t') :: rest, k, t =>
      if k' = k then (k', t) :: rest else (k', t') :: storeT rest k t

/-- Fresh accumulator for a first-seen target (Go
`Target{Name: m.Target, Match: make([]float64, m.IdxNum), ...}`).
A negative `IdxNum` panics in Go; `Int.toNat` maps it to an empty slice. -/
def makeTarget (m : MatchResult) : Target :=
  { Name := m.Target
    Match := List.replicate m.IdxNum.toNat 0
    UniqMatch := List.replicate m.IdxNum.toNat 0
    FragLens := List.replicate m.IdxNum.toNat 0
    SumUniqMatch := 0
    FragsProp := 0
    MeanAbundance := 0 }

/-- Credit one hit `m` of a query to its target accumulator, where `msLen`
is the number of hits of this query on this same target (Go loop body:
`t.Match[m.FragIdx] += 1/float64(len(ms))`, `t.UniqMatch[m.FragIdx] += 1`
when `len(ms) == 1`, `t.FragLens[m.FragIdx] += uint64(m.QLen)`). -/
def creditOne (msLen : ℕ) (m : MatchResult) (t : Target) : Target :=
  { t with
    Name := m.Target
    Match := updAtZ t.Match m.FragIdx (fun c => c + 1 / (msLen : ℚ))
    UniqMatch :=
      if msLen = 1 then updAtZ t.UniqMatch m.FragIdx (fun c => c + 1)
      else t.UniqMatch
    FragLens :=
      updAtZ t.FragLens m.FragIdx (fun v => v + ((m.QLen.emod (2 ^ 64)).toNat)) }

/-- Flush the bucket of one target for the finished query
(Go `for _, m = range ms { ... }` with lookup-or-create of the target). -/
def flushGroup (p : Profile) (g : String × List MatchResult) : Profile :=
  g.2.foldl
    (fun p m =>
      storeT p g.1 (creditOne g.2.length m ((lookupT p g.1).getD (makeTarget m))))
    p

/-- Flush all buckets of a finished query
(Go `for h, ms = range matches { ... }`; distinct targets commute). -/
def flushMatches (p : Profile) (gs : List (String × List MatchResult)) : Profile :=
  gs.foldl flushGroup p

/-- Add one hit to the per-query bucket map `matches[hTarget]`
(insertion order of first appearance models Go map creation). -/
def insertHit (gs : List (String × List MatchResult)) (m : MatchResult) :
    List (String × List MatchResult) :=
  match gs with
  | [] => [(m.Target, [m])]
  | (k, ms) :: rest =>
      if k = m.Target then (k, ms ++ [m]) :: rest
      else (k, ms) :: insertHit rest m

/-- Bucket the hits of one query by target. -/
def groupByTarget (hits : List MatchResult) : List (String × List MatchResult) :=
  hits.foldl insertHit []

/-- Aggregate the full hit set of one query into the profile: this is what
the Go loop does at each query boundary (`prevQuery != match.Query`). -/
def creditQuery (p : Profile) (hits : List MatchResult) : Profile :=
  flushMatches p (groupByTarget hits)

/-- Aggregate a stream of already-grouped queries. -/
def profileQueries (qss : List (List MatchResult)) : Profile :=
  qss.foldl creditQuery []

/-! ## Profiler: line parsing (`parseMatchResult`, `stringSplitN`) -/

/-- Digit-string parser (the character-level core of `strconv.Atoi` and of
the integer parts of `strconv.ParseFloat`): all characters must be decimal
digits and there must be at least one. -/
def digitsToNat? (cs : List Char) : Option ℕ :=
  match cs with
  | [] => none
  | _ =>
    cs.foldl
      (fun acc c =>
        match acc with
        | none => none
        | some n => if c.isDigit then some (n * 10 + (c.toNat - 48)) else none)
      (some 0)

/-- Model of `strconv.Atoi`: optional sign followed by digits. -/
def parseInt? (s : String) : Option Int :=
  match s.data with
  | '-' :: cs => (digitsToNat? cs).map (fun n => -(n : Int))
  | '+' :: cs => (digitsToNat? cs).map (fun n => (n : Int))
  | cs => (digitsToNat? cs).map (fun n => (n : Int))

/-- Model of `strconv.ParseFloat` restricted to plain decimal literals
`[-]digits[.digits]` (the forms the claims evaluate); returns `none` exactly
when Go's parser fails on such input. -/
def parseRat? (s : String) : Option ℚ :=
  let core : List Char → Option ℚ := fun cs =>
    match cs.splitOn '.' with
    | [a] => (digitsToNat? a).map (fun n => (n : ℚ))
    | [a, b] =>
        match digitsToNat? a, digitsToNat? b with
        | some x, some y => some ((x : ℚ) + (y : ℚ) / (10 ^ b.length))
        | _, _ => none
    | _ => none
  match s.data with
  | '-' :: cs => (core cs).map (fun q => -q)
  | cs => core cs

/-- Modelled from the spec: the repo helper `stringSplitN` (not under `src/`)
splits a TSV line like Go `strings.SplitN(line, "\t", n)`: at most `n`
items, the last one keeping the unsplit remainder. -/
def stringSplitN (s : String) (n : ℕ) : List String :=
  let parts := (s.data.splitOn '\t').map String.mk
  if parts.length ≤ n then parts
  else
    parts.take (n - 1) ++
      [String.mk ((((s.data.splitOn '\t').drop (n - 1)).intersperse ['\t']).flatten)]

/-- Modelled from the spec: outcome of parsing one line.  The repo helper
`checkError` (not under `src/`) aborts the program on a non-nil error
("fatal errors produce a non-zero exit", spec §7); `parseMatchResult`
passes it a fresh error whenever a numeric field fails to parse, which is
`fatal` here.  `skip` is the `return m, false` path (threshold filters). -/
inductive ParseOutcome where
  | fatal (msg : String)
  | skip
  | ok (m : MatchResult)
deriving Repr, DecidableEq

/-- Go `parseMatchResult(line, numFields, &items, maxPFR, minQcov)`, applied
to the already split fields.  Field order and the interleaving of fatal
parses and `skip` filters mirror the source exactly. -/
def parseMatchResult (items : List String) (maxPFR minQcov : ℚ) : ParseOutcome :=
  match parseRat? (items.getD 3 "") with
  | none => .fatal ("failed to parse FPR: " ++ items.getD 3 "")
  | some fpr =>
    if maxPFR < fpr then .skip
    else
      match parseRat? (items.getD 9 "") with
      | none => .fatal ("failed to parse qCov: " ++ items.getD 9 "")
      | some qcov =>
        if qcov < minQcov then .skip
        else
          match parseInt? (items.getD 1 "") with
          | none => .fatal ("failed to parse qLen: " ++ items.getD 1 "")
          | some qLen =>
            match parseInt? (items.getD 2 "") with
            | none => .fatal ("failed to parse qKmers: " ++ items.getD 2 "")
            | some qKmers =>
              match parseInt? (items.getD 4 "") with
              | none => .fatal ("failed to parse hits: " ++ items.getD 4 "")
              | some hits =>
                match parseInt? (items.getD 6 "") with
                | none => .fatal ("failed to parse fragIdx: " ++ items.getD 6 "")
                | some fragIdx =>
                  match parseInt? (items.getD 7 "") with
                  | none => .fatal ("failed to parse IdxNum: " ++ items.getD 7 "")
                  | some idxNum =>
                    match parseInt? (items.getD 8 "") with
                    | none => .fatal ("failed to parse mKmers: " ++ items.getD 8 "")
                    | some mKmers =>
                      .ok
                        { Query := items.getD 0 ""
                          QLen := qLen
                          QKmers := qKmers
                          FPR := fpr
                          Hits := hits
                          Target := items.getD 5 ""
                          FragIdx := fragIdx
                          IdxNum := idxNum
                          MKmers := mKmers
                          QCov := qcov }

/-! ## Profiler: the streaming scan over input lines -/

/-- Live state of the scan loop: the per-query bucket map (Go `matches`),
the query-boundary tracker `prevQuery` and the global `profile`. -/
structure ScanState where
  buckets : List (String × List MatchResult)
  prevQuery : String
  profile : Profile
deriving DecidableEq

/-- Process one input line (the body of `for scanner.Scan()` after the
header skip): a fatal parse aborts, a filtered line is skipped, and a new
query name first flushes the buckets of the previous query. -/
def scanLine (maxPFR minQcov : ℚ) (st : ScanState) (line : String) :
    Except String ScanState :=
  match parseMatchResult (stringSplitN line 11) maxPFR minQcov with
  | .fatal e => .error e
  | .skip => .ok st
  | .ok m =>
    let st1 :=
      if st.prevQuery ≠ m.Query then
        { st with profile := flushMatches st.profile st.buckets, buckets := [] }
      else st
    .ok { st1 with buckets := insertHit st1.buckets m, prevQuery := m.Query }

/-- Scan a list of lines, stopping at the first fatal error. -/
def scanFold (maxPFR minQcov : ℚ) (st : ScanState) :
    List String → Except String ScanState
  | [] => .ok st
  | l :: ls =>
    match scanLine maxPFR minQcov st l with
    | .error e => .error e
    | .ok st' => scanFold maxPFR minQcov st' ls

/-- Scan one input file: the first line is skipped unconditionally
(`firtLine`), and the buckets of the last query are flushed at the end. -/
def profScan (maxPFR minQcov : ℚ) (lines : List String) : Except String Profile :=
  match lines with
  | [] => .ok []
  | _ :: rest =>
    (scanFold maxPFR minQcov ⟨[], "", []⟩ rest).map
      (fun st => flushMatches st.profile st.buckets)

/-! ## Profiler: the post-stream target filter and the comparator -/

/-- The post-stream filter (Go loop `for h, t := range profile`): compute
`FragsProp` as the number of fragments with more than `minReads` matches
over the fragment count, drop the target when it is below `minFragsProp`,
then drop it when the summed unique matches are below `minUReads`; the
survivors carry their computed statistics. -/
def survivorsOf (minReads minUReads : Int) (minFragsProp : ℚ) (p : Profile) :
    List Target :=
  p.foldl
    (fun acc e =>
      let t := e.2
      let fp : ℚ :=
        ((t.Match.countP (fun c => decide ((minReads : ℚ) < c))) : ℚ) /
          (t.Match.length : ℚ)
      if fp < minFragsProp then acc
      else
        let su : ℕ := t.UniqMatch.sum
        if (su : Int) < minUReads then acc
        else
          acc ++
            [{ t with
                FragsProp := fp
                SumUniqMatch := su
                MeanAbundance := t.Match.sum / (t.Match.length : ℚ) }])
    []

/-- The per-entry decision of the post-stream filter, written as a single
`Option`: the entry survives (with its computed statistics) exactly when
its fragment proportion and its unique-read sum are not below their
thresholds. -/
def survivorKeep (minReads minUReads : Int) (minFragsProp : ℚ)
    (e : String × Target) : Option Target :=
  let fp : ℚ :=
    ((e.2.Match.countP (fun c => decide ((minReads : ℚ) < c))) : ℚ) /
      (e.2.Match.length : ℚ)
  let su : ℕ := e.2.UniqMatch.sum
  if minFragsProp ≤ fp ∧ minUReads ≤ (su : Int) then
    some
      { e.2 with
          FragsProp := fp
          SumUniqMatch := su
          MeanAbundance := e.2.Match.sum / (e.2.Match.length : ℚ) }
  else none

/-- The full profile pipeline up to (and excluding) the final sort, which
only permutes the survivors; the claims about emission are membership
statements and therefore sort-invariant. -/
def pipelineNames (maxPFR minQcov : ℚ) (minReads minUReads : Int)
    (minFragsProp : ℚ) (lines : List String) : Except String (List String) :=
  (profScan maxPFR minQcov lines).map
    (fun p => (survivorsOf minReads minUReads minFragsProp p).map Target.Name)

/-- Go `func (t Targets) Less(i, j int) bool`:
`t[i].FragsProp > t[j].FragsProp && t[i].MeanAbundance > t[j].MeanAbundance`
— a conjunction of strict comparisons, not a lexicographic order. -/
def targetsLess (a b : Target) : Prop :=
  b.FragsProp < a.FragsProp ∧ b.MeanAbundance < a.MeanAbundance

instance (a b : Target) : Decidable (targetsLess a b) :=
  inferInstanceAs (Decidable (_ ∧ _))

/-- What `sorts.Quicksort(Targets(targets))` guarantees of its output (the
`sort.IsSorted` contract): no element is `Less` than its predecessor. -/
def sortedByLess (l : List Target) : Prop :=
  List.Chain' (fun a b => ¬ targetsLess b a) l

instance (l : List Target) : Decidable (sortedByLess l) :=
  inferInstanceAs (Decidable (List.Chain' _ l))

/-! ## Search: output records (the printer goroutine of `searchCmd`) -/

/-- Go `index.Match` as used by the printer: the fields read are
`Target[0]`, `TargetIdx[0]` (a `uint32` packing `fragIdx` in the low 16
bits and `frags` in the high 16), `GenomeSize[0]`, `NumKmers`, `QCov`,
`TCov`, `JaccardIndex`. -/
structure SearchMatch where
  Target : List String
  TargetIdx : List ℕ
  GenomeSize : List ℕ
  NumKmers : ℕ
  QCov : ℚ
  TCov : ℚ
  JaccardIndex : ℚ
deriving Repr, DecidableEq, Inhabited

/-- Go `QueryResult` as used by the printer; `Matches == nil` is `none`. -/
structure QueryResult where
  QueryID : String
  QueryLen : ℕ
  NumKmers : ℕ
  FPR : ℚ
  K : ℕ
  QueryIdx : ℕ
  Matches : Option (List SearchMatch)
deriving Repr, DecidableEq, Inhabited

/-- One output line of the search TSV, with the fifteen columns
`query qLen qKmers FPR hits target fragIdx frags tLen kSize mKmers qCov
tCov jacc queryIdx` carried as semantic values (the `strconv` formatting of
the Go printer is elided). -/
structure OutRecord where
  query : String
  qLen : ℕ
  qKmers : ℕ
  fpr : ℚ
  hits : ℕ
  target : String
  fragIdx : Int
  frags : ℕ
  tLen : ℕ
  kSize : ℕ
  mKmers : ℕ
  qCov : ℚ
  tCov : ℚ
  jacc : ℚ
  queryIdx : ℕ
deriving Repr, DecidableEq, Inhabited

/-- The record written for an unmatched query (`result.Matches == nil`
branch): `target` empty, `fragIdx` written as `-1`, `hits` and all numeric
hit fields written as zero, the query-side fields kept. -/
def unmatchedRecord (r : QueryResult) : OutRecord :=
  { query := r.QueryID
    qLen := r.QueryLen
    qKmers := r.NumKmers
    fpr := r.FPR
    hits := 0
    target := ""
    fragIdx := -1
    frags := 0
    tLen := 0
    kSize := r.K
    mKmers := 0
    qCov := 0
    tCov := 0
    jacc := 0
    queryIdx := r.QueryIdx }

/-- The record written for one match of a matched query
(`for _, match := range *result.Matches`): `fragIdx` is
`int(uint16(match.TargetIdx[0]))`, `frags` is `match.TargetIdx[0] >> 16`. -/
def matchRecord (r : QueryResult) (hits : ℕ) (m : SearchMatch) : OutRecord :=
  { query := r.QueryID
    qLen := r.QueryLen
    qKmers := r.NumKmers
    fpr := r.FPR
    hits := hits
    target := m.Target.getD 0 ""
    fragIdx := ((m.TargetIdx.getD 0 0) % 65536 : ℕ)
    frags := (m.TargetIdx.getD 0 0) / 65536
    tLen := m.GenomeSize.getD 0 0
    kSize := r.K
    mKmers := m.NumKmers
    qCov := m.QCov
    tCov := m.TCov
    jacc := m.JaccardIndex
    queryIdx := r.QueryIdx }

/-- What the printer goroutine writes for one received `QueryResult`: an
unmatched result produces one record only when `keepUnmatched` is on, a
matched result produces one record per match with `hits` the match count. -/
def outputRecords (keepUnmatched : Bool) (r : QueryResult) : List OutRecord :=
  match r.Matches with
  | none => if keepUnmatched then [unmatchedRecord r] else []
  | some ms => ms.map (matchRecord r ms.length)

/-! ## Search: the keep-order serializer -/

/-- Association-list lookup for the reorder buffer `m map[uint64]*QueryResult`. -/
def alook {α : Type} : List (ℕ × α) → ℕ → Option α
  | [], _ => none
  | (k, v) :: rest, q => if k = q then some v else alook rest q

/-- Go `delete(m, id)`. -/
def aerase {α : Type} (l : List (ℕ × α)) (k : ℕ) : List (ℕ × α) :=
  l.filter (fun p => p.1 ≠ k)

/-- State of the serializer goroutine: the reorder buffer, the monotone
cursor `id`, and the results already sent to the output channel in order. -/
structure SerState (α : Type) where
  pending : List (ℕ × α)
  cursor : ℕ
  out : List (ℕ × α)
deriving Repr, DecidableEq

/-- One iteration of `for result := range sg.OutCh` in the `keepOrder`
branch: a result carrying the cursor index is emitted at once and the
cursor advances; otherwise the result is buffered and the buffer is probed
once for the cursor index. -/
def serStep {α : Type} (st : SerState α) (r : ℕ × α) : SerState α :=
  if r.1 = st.cursor then
    { st with out := st.out ++ [r], cursor := st.cursor + 1 }
  else
    match alook (st.pending ++ [r]) st.cursor with
    | some v =>
        { pending := aerase (st.pending ++ [r]) st.cursor
          cursor := st.cursor + 1
          out := st.out ++ [(st.cursor, v)] }
    | none => { st with pending := st.pending ++ [r] }

/-- After the input channel closes, remaining buffered results are emitted
in ascending index order (`sortutil.Uint64s(ids)`). -/
def serFlush {α : Type} (st : SerState α) : List (ℕ × α) :=
  let ids := (st.pending.map Prod.fst).mergeSort (fun a b => a ≤ b)
  st.out ++ ids.filterMap (fun i => (alook st.pending i).map (fun v => (i, v)))

/-- The full serializer: consume the worker results in arrival order,
then flush. -/
def serialize {α : Type} (rs : List (ℕ × α)) : List (ℕ × α) :=
  serFlush (rs.foldl serStep ⟨[], 0, []⟩)

/-- The flattened record stream: the printer writes all records of one
query result consecutively. -/
def recordStream {α : Type} (out : List (ℕ × List α)) : List (ℕ × α) :=
  out.flatMap (fun p => p.2.map (fun rec => (p.1, rec)))

/-! ## Search: startup check of `--min-query-cov` against the database FPR -/

/-- Go `for _, db := range sg.DBs { if queryCov <= db.Info.FPR {
checkError(...) } }`: the first database whose recorded single-bloom-filter
FPR is at least the query-coverage threshold aborts startup. -/
def checkQcovFPR (queryCov : ℚ) (fprs : List ℚ) : Except String Unit :=
  match fprs with
  | [] => .ok ()
  | f :: rest =>
      if queryCov ≤ f then
        .error
          "query coverage threshold should not be smaller than FPR of single bloom filter of index database"
      else checkQcovFPR queryCov rest

/-- The search command after database load: the FPR check runs before any
query is read or probed; only when it passes are the queries processed. -/
def searchRun {α β : Type} (queryCov : ℚ) (fprs : List ℚ) (queries : List α)
    (probe : α → β) : Except String (List β) :=
  match checkQcovFPR queryCov fprs with
  | .error e => .error e
  | .ok _ => .ok (queries.map probe)

/-! ## Index build: the batching state machine (`indexCmd`, block loop) -/

/-- State of the batching loop over the size-sorted file groups: the open
`batch`, the current block size `sBlock` (reduced to 8 once `flag8` is
set), the two sticky marks `flag8` (a group above threshold-1 was met) and
`flag` (a group above threshold-2 was met), the deferred group `lastInfos`,
the emitted blocks, and the `break` flag of the Go loop. -/
structure BatchState where
  batch : List ℕ
  sBlock : ℕ
  flag8 : Bool
  flag : Bool
  last : Option ℕ
  out : List (List ℕ)
  done : Bool
deriving Repr, DecidableEq

/-- The tail of each loop iteration: an empty batch either breaks (nothing
deferred) or continues; a non-empty batch is emitted as a block. -/
def bbEmit (st : BatchState) : BatchState :=
  if st.batch = [] then
    if st.last = none then { st with done := true } else st
  else { st with out := st.out ++ [st.batch], batch := [] }

/-- One iteration of the batching loop on a group with `g` k-mers,
mirroring the `flag || flag8` / `kmerThreshold8` / `kmerThresholdS`
branches of the source; groups with zero k-mers are skipped. -/
def bbStep (T8 TX : ℕ) (st : BatchState) (g : ℕ) : BatchState :=
  if st.done then st
  else if g = 0 then st
  else if st.flag || st.flag8 then
    let st1 :=
      match st.last with
      | some l => { st with batch := st.batch ++ [l], last := none }
      | none => st
    if st1.flag then bbEmit { st1 with last := some g }
    else if TX < g then bbEmit { st1 with flag := true, last := some g }
    else
      let st2 := { st1 with batch := st1.batch ++ [g] }
      if st2.batch.length < st2.sBlock then st2 else bbEmit st2
  else if T8 < g then
    if TX < g then bbEmit { st with flag := true, last := some g }
    else bbEmit { st with sBlock := 8, flag8 := true, last := some g }
  else
    let st2 := { st with batch := st.batch ++ [g] }
    if st2.batch.length < st2.sBlock then st2 else bbEmit st2

/-- The `i == nFiles` round: a deferred group is appended to the batch
(under `flag || flag8`) and the final batch is emitted. -/
def bbFinish (st : BatchState) : BatchState :=
  if st.done then st
  else
    let st1 :=
      if st.flag || st.flag8 then
        match st.last with
        | some l => { st with batch := st.batch ++ [l], last := none }
        | none => st
      else st
    bbEmit st1

/-- Run the batching loop on the k-mer counts of the sorted groups with
initial block size `sB`; the result is the list of emitted blocks, each a
list of group k-mer counts. -/
def bbRun (T8 TX sB : ℕ) (gs : List ℕ) : List (List ℕ) :=
  (bbFinish (gs.foldl (bbStep T8 TX) ⟨[], sB, false, false, none, [], false⟩)).out

/-- Reference chunking: cutting a list into consecutive pieces of `n`
elements (the last piece possibly shorter). -/
def chunkList {α : Type} : ℕ → List α → List (List α)
  | _, [] => []
  | 0, l => [l]
  | n + 1, a :: l => (a :: l.take n) :: chunkList (n + 1) (l.drop n)
termination_by _ l => l.length
decreasing_by
  simp only [List.length_drop, List.length_cons]
  omega

/-! ## Index build: the Bloom-signature fill loop (`indexCmd`, 8-file batches) -/

/-- `sigs[pos] |= b` on the byte plane, modelled as a row-indexed family of
bytes. -/
def orAt (s : ℕ → ℕ) (pos b : ℕ) : ℕ → ℕ :=
  fun r => if r = pos then s r ||| b else s r

/-- Fill the plane with the codes of one `.unik` file for the column with
bit mask `bit`: with one hash and a pre-hashed stream the row is
`code & (numSigs-1)`; a stream that is not pre-hashed first applies
`hash64` (`sigs[hash64(code)&numSigsM1] |= 1 << (7 - _k)`). -/
def fillFile (hashed : Bool) (hash64 : ℕ → ℕ) (mask bit : ℕ) (s : ℕ → ℕ)
    (codes : List ℕ) : ℕ → ℕ :=
  codes.foldl
    (fun s code => orAt s ((if hashed then code else hash64 code) &&& mask) bit) s

/-- Fill the plane with all files of the group occupying one column. -/
def fillColumn (hashed : Bool) (hash64 : ℕ → ℕ) (mask bit : ℕ) (s : ℕ → ℕ)
    (files : List (List ℕ)) : ℕ → ℕ :=
  files.foldl (fillFile hashed hash64 mask bit) s

/-- Fill one byte plane (`sigs := make([]byte, numSigs)`) with up to eight
column groups: the group at offset `_k` ORs bit `1 <<< (7 - _k)`. -/
def fillPlane (hashed : Bool) (hash64 : ℕ → ℕ) (mask : ℕ)
    (groups : List (List (List ℕ))) : ℕ → ℕ :=
  (groups.enum).foldl
    (fun s kg => fillColumn hashed hash64 mask (1 <<< (7 - kg.1)) s kg.2)
    (fun _ => 0)

/-- The byte plane holding column `8*p .. 8*p+7` of a block whose columns
(`batch`) are the listed groups (`_batch := batch[ii:jj]` with `ii = 8*p`). -/
def planeOf (hashed : Bool) (hash64 : ℕ → ℕ) (numSigs : ℕ)
    (columns : List (List (List ℕ))) (p : ℕ) : ℕ → ℕ :=
  fillPlane hashed hash64 (numSigs - 1) ((columns.drop (8 * p)).take 8)

/-! ## Statement-level definitions used by the claims -/

/-- The ordering the spec asserts between consecutive profile output lines:
the earlier target has a strictly greater `fragsProp`, or an equal
`fragsProp` and a greater-or-equal `meanReads`. -/
def descLexPair (a b : Target) : Prop :=
  b.FragsProp < a.FragsProp ∨
    (a.FragsProp = b.FragsProp ∧ b.MeanAbundance ≤ a.MeanAbundance)

instance (a b : Target) : Decidable (descLexPair a b) :=
  inferInstanceAs (Decidable (_ ∨ _))

/-- Number of hits of one query on target `t` (the length of the bucket
`matches[t]`, i.e. the divisor the code actually uses). -/
def countTargetHits (hits : List MatchResult) (t : String) : ℕ :=
  (hits.filter (fun m => m.Target = t)).length

/-- Number of hits of one query on target `t` at fragment `f`. -/
def countFragHits (hits : List MatchResult) (t : String) (f : Int) : ℕ :=
  (hits.filter (fun m => m.Target = t ∧ m.FragIdx = f)).length

/-- The `match[t][f]` counter of a profile (0 when absent). -/
def targetMatchAt (p : Profile) (t : String) (f : ℕ) : ℚ :=
  ((lookupT p t).map (fun tg => tg.Match.getD f 0)).getD 0

/-- The `unique_match[t][f]` counter of a profile (0 when absent). -/
def targetUniqAt (p : Profile) (t : String) (f : ℕ) : ℕ :=
  ((lookupT p t).map (fun tg => tg.UniqMatch.getD f 0)).getD 0

/-- A synthetic hit: query `q` matching target `tg` on fragment 0 of 1,
with per-read FPR 1/10000 and query coverage 3/4. -/
def exHit (q tg : String) : MatchResult :=
  { Query := q, QLen := 100, QKmers := 80, FPR := 1 / 10000, Hits := 1
    Target := tg, FragIdx := 0, IdxNum := 1, MKmers := 60, QCov := 3 / 4 }

/-- The three-read stream of the spec scenario: reads hitting `{A,B}`,
`{A,C}` and `{A}` respectively. -/
def exThreeReads : List (List MatchResult) :=
  [[exHit "r1" "A", exHit "r1" "B"],
   [exHit "r2" "A", exHit "r2" "C"],
   [exHit "r3" "A"]]

end Kmcp

namespace Kmcp

/-- A two-element target list that satisfies the comparator contract of the
profiler sort. -/
def exSortedTargets : List Target :=
  [{ Name := "a", Match := [], UniqMatch := [], FragLens := [],
     SumUniqMatch := 0, FragsProp := 9 / 10, MeanAbundance := 10 },
   { Name := "b", Match := [], UniqMatch := [], FragLens := [],
     SumUniqMatch := 0, FragsProp := 1 / 2, MeanAbundance := 5 }]

/-- A one-target profile whose single fragment holds two unique matches. -/
def exTargetA : Target :=
  { Name := "A", Match := [2], UniqMatch := [2], FragLens := [200],
    SumUniqMatch := 0, FragsProp := 0, MeanAbundance := 0 }

/-- `exTargetA` as the filter emits it. -/
def exSurvivorA : Target :=
  { exTargetA with FragsProp := 1, SumUniqMatch := 2, MeanAbundance := 2 }

/-- Search-output lines whose reads all hit target `A` with query coverage
0.75; the first line is the header. -/
def exLines8 : List String :=
  ["#query\tqLen\tqKmers\tFPR\thits\ttarget\tfragIdx\tfrags\ttLen\tkSize\tmKmers\tqCov\ttCov\tjacc\tqueryIdx",
   "r1\t100\t80\t0.0001\t1\tA\t0\t1\t60\t0.7500\tx",
   "r2\t100\t80\t0.0001\t1\tA\t0\t1\t60\t0.7500\tx"]

/-- The same stream with a line whose FPR field is not numeric. -/
def exLines9 : List String :=
  ["#query\tqLen\tqKmers\tFPR\thits\ttarget\tfragIdx\tfrags\ttLen\tkSize\tmKmers\tqCov\ttCov\tjacc\tqueryIdx",
   "r1\t100\t80\t0.0001\t1\tA\t0\t1\t60\t0.7500\tx",
   "r2\t100\t80\tabc\t1\tA\t0\t1\t60\t0.7500\tx",
   "r3\t100\t80\t0.0001\t1\tA\t0\t1\t60\t0.7500\tx"]

instance {ε α : Type} [DecidableEq ε] [DecidableEq α] :
    DecidableEq (Except ε α) := fun x y =>
  match x, y with
  | .error a, .error b =>
      if h : a = b then isTrue (by rw [h]) else isFalse (by simp [h])
  | .ok a, .ok b =>
      if h : a = b then isTrue (by rw [h]) else isFalse (by simp [h])
  | .error _, .ok _ => isFalse (by simp)
  | .ok _, .error _ => isFalse (by simp)

/-- C4: for a query with no matches, a record is written if and only if
keep_unmatched is enabled, and that record carries target="", fragIdx=-1,
hits=0 and zeroed frags/tLen/mKmers/qCov/tCov/jacc, while query, qLen,
qKmers, FPR, kSize and queryIdx keep the query's real values. -/
theorem claim4_theorem (keepUnmatched : Bool) (r : QueryResult)
    (h : r.Matches = none) :
    (outputRecords keepUnmatched r ≠ [] ↔ keepUnmatched = true) ∧
    outputRecords true r = [unmatchedRecord r] ∧
    outputRecords false r = [] ∧
    (unmatchedRecord r).target = "" ∧ (unmatchedRecord r).fragIdx = -1 ∧
    (unmatchedRecord r).hits = 0 ∧ (unmatchedRecord r).frags = 0 ∧
    (unmatchedRecord r).tLen = 0 ∧ (unmatchedRecord r).mKmers = 0 ∧
    (unmatchedRecord r).qCov = 0 ∧ (unmatchedRecord r).tCov = 0 ∧
    (unmatchedRecord r).jacc = 0 ∧ (unmatchedRecord r).query = r.QueryID ∧
    (unmatchedRecord r).qLen = r.QueryLen ∧
    (unmatchedRecord r).qKmers = r.NumKmers ∧
    (unmatchedRecord r).fpr = r.FPR ∧ (unmatchedRecord r).kSize = r.K ∧
    (unmatchedRecord r).queryIdx = r.QueryIdx := by
  unfold outputRecords
  rw [h]
  cases keepUnmatched <;> simp [unmatchedRecord]

/-- C4 witness -/
theorem claim4_witness :
    outputRecords true
        { QueryID := "q", QueryLen := 5, NumKmers := 3, FPR := 1 / 2, K := 21
          QueryIdx := 7, Matches := none }
      = [unmatchedRecord
          { QueryID := "q", QueryLen := 5, NumKmers := 3, FPR := 1 / 2, K := 21
            QueryIdx := 7, Matches := none }] :=
  (claim4_theorem true _ rfl).2.1

/-- C10: at startup, search fails with a fatal error — before any query is
probed — exactly when the min-query-cov threshold is at most the recorded
single-filter false-positive rate of some loaded database; probing of the
queries proceeds only under the precondition that the threshold strictly
exceeds every database's FPR. -/
theorem claim10_theorem {α β : Type} (queryCov : ℚ) (fprs : List ℚ)
    (queries : List α) (probe : α → β) :
    (checkQcovFPR queryCov fprs = .ok () ↔ ∀ f ∈ fprs, f < queryCov) ∧
    ((∃ f ∈ fprs, queryCov ≤ f) →
      ∀ res, searchRun queryCov fprs queries probe ≠ .ok res) ∧
    ((∀ f ∈ fprs, f < queryCov) →
      searchRun queryCov fprs queries probe = .ok (queries.map probe)) := by
  have hiff : checkQcovFPR queryCov fprs = .ok () ↔ ∀ f ∈ fprs, f < queryCov := by
    induction fprs with
    | nil => simp [checkQcovFPR]
    | cons f rest ih =>
      by_cases hf : queryCov ≤ f
      · simp [checkQcovFPR, hf, not_lt.mpr hf]
      · simp [checkQcovFPR, hf, not_le.mp hf, ih]
  refine ⟨hiff, ?_, ?_⟩
  · rintro ⟨f, hmem, hle⟩ res hok
    unfold searchRun at hok
    rcases hchk : checkQcovFPR queryCov fprs with e | u
    · rw [hchk] at hok; exact absurd hok (by simp)
    · have := hiff.mp (by rw [hchk]) f hmem
      exact absurd hle (not_le.mpr this)
  · intro hall
    unfold searchRun
    rw [hiff.mpr hall]

/-- C10 witness -/
theorem claim10_witness :
    ((∃ f ∈ [(3 : ℚ) / 10], (1 : ℚ) / 2 ≤ f) → ∀ res,
        searchRun ((1 : ℚ) / 2) [(3 : ℚ) / 10] [0] (fun n : ℕ => n) ≠ .ok res) ∧
    ((∀ f ∈ [(3 : ℚ) / 10], f < (1 : ℚ) / 2) →
        searchRun ((1 : ℚ) / 2) [(3 : ℚ) / 10] [0] (fun n : ℕ => n)
          = .ok [0]) ∧
    (∀ f ∈ [(3 : ℚ) / 10], f < (1 : ℚ) / 2) :=
  ⟨(claim10_theorem ((1 : ℚ) / 2) [(3 : ℚ) / 10] [0] (fun n : ℕ => n)).2.1,
   (claim10_theorem ((1 : ℚ) / 2) [(3 : ℚ) / 10] [0] (fun n : ℕ => n)).2.2,
   by intro f hf; simp at hf; rw [hf]; with_unfolding_all decide⟩

/-- C7 counterexample -/
theorem claim7_counterexample :
    sortedByLess
        [{ Name := "a", Match := [], UniqMatch := [], FragLens := [],
           SumUniqMatch := 0, FragsProp := 1 / 2, MeanAbundance := 10 },
         { Name := "b", Match := [], UniqMatch := [], FragLens := [],
           SumUniqMatch := 0, FragsProp := 9 / 10, MeanAbundance := 5 }] ∧
    ¬ descLexPair
        { Name := "a", Match := [], UniqMatch := [], FragLens := [],
          SumUniqMatch := 0, FragsProp := 1 / 2, MeanAbundance := 10 }
        { Name := "b", Match := [], UniqMatch := [], FragLens := [],
          SumUniqMatch := 0, FragsProp := 9 / 10, MeanAbundance := 5 } := by
  constructor
  · unfold sortedByLess
    simp [List.chain'_cons, targetsLess]
    with_unfolding_all decide
  · unfold descLexPair
    with_unfolding_all decide

/-- C7 (corrected): the sort comparator returns true only when BOTH
fragsProp and meanAbundance are strictly greater, so a sorted profile only
guarantees, for consecutive targets, that the later one does not beat the
earlier on both fields: its fragsProp is ≤ the earlier one's, or its
meanAbundance is — not the descending lexicographic order the spec
claims. -/
theorem claim7_theorem (l : List Target) (hs : sortedByLess l) (i : ℕ)
    (h : i + 1 < l.length) :
    (l.get ⟨i + 1, h⟩).FragsProp ≤ (l.get ⟨i, by omega⟩).FragsProp ∨
    (l.get ⟨i + 1, h⟩).MeanAbundance ≤ (l.get ⟨i, by omega⟩).MeanAbundance := by
  unfold sortedByLess at hs
  rw [List.chain'_iff_get] at hs
  have := hs i (by omega)
  unfold targetsLess at this
  push_neg at this
  by_cases hlt : (l.get ⟨i, by omega⟩).FragsProp < (l.get ⟨i + 1, h⟩).FragsProp
  · exact Or.inr (this hlt)
  · exact Or.inl (not_lt.mp hlt)


/-- C7 witness -/
theorem claim7_witness :
    sortedByLess exSortedTargets ∧
    ((exSortedTargets.get ⟨1, by simp [exSortedTargets]⟩).FragsProp ≤
        (exSortedTargets.get ⟨0, by simp [exSortedTargets]⟩).FragsProp ∨
      (exSortedTargets.get ⟨1, by simp [exSortedTargets]⟩).MeanAbundance ≤
        (exSortedTargets.get ⟨0, by simp [exSortedTargets]⟩).MeanAbundance) := by
  have hs : sortedByLess exSortedTargets := by
    unfold sortedByLess exSortedTargets
    simp [List.chain'_cons, targetsLess]
    with_unfolding_all decide
  exact ⟨hs, claim7_theorem _ hs 0 (by simp [exSortedTargets])⟩

/-- C1 counterexample -/
theorem claim1_counterexample :
    targetMatchAt (profileQueries exThreeReads) "A" 0 = 3 ∧
    targetMatchAt (profileQueries exThreeReads) "A" 0 ≠ 2 ∧
    targetMatchAt (profileQueries exThreeReads) "B" 0 = 1 ∧
    targetMatchAt (profileQueries exThreeReads) "C" 0 = 1 ∧
    targetUniqAt (profileQueries exThreeReads) "B" 0 = 1 ∧
    targetUniqAt (profileQueries exThreeReads) "A" 0 = 3 := by
  with_unfolding_all decide


theorem survivorsOf_go (minReads minUReads : Int) (minFragsProp : ℚ)
    (p : List (String × Target)) (acc : List Target) :
    p.foldl
      (fun acc e =>
        let t := e.2
        let fp : ℚ :=
          ((t.Match.countP (fun c => decide ((minReads : ℚ) < c))) : ℚ) /
            (t.Match.length : ℚ)
        if fp < minFragsProp then acc
        else
          let su : ℕ := t.UniqMatch.sum
          if (su : Int) < minUReads then acc
          else
            acc ++
              [{ t with
                  FragsProp := fp
                  SumUniqMatch := su
                  MeanAbundance := t.Match.sum / (t.Match.length : ℚ) }]) acc
    = acc ++ p.filterMap (survivorKeep minReads minUReads minFragsProp) := by
  induction p generalizing acc with
  | nil => simp
  | cons e rest ih =>
    simp only [List.foldl_cons]
    by_cases h1 : ((e.2.Match.countP (fun c => decide ((minReads : ℚ) < c))) : ℚ) /
        (e.2.Match.length : ℚ) < minFragsProp
    · rw [if_pos h1, ih,
        List.filterMap_cons_none
          (by
            unfold survivorKeep
            exact if_neg (fun hc => absurd h1 (not_lt.mpr hc.1)))]
    · rw [if_neg h1]
      by_cases h2 : ((e.2.UniqMatch.sum : ℕ) : Int) < minUReads
      · rw [if_pos h2, ih,
          List.filterMap_cons_none
            (by
              unfold survivorKeep
              exact if_neg (fun hc => absurd h2 (not_lt.mpr hc.2)))]
      · rw [if_neg h2, ih,
          List.filterMap_cons_some
            (by
              unfold survivorKeep
              exact if_pos ⟨not_lt.mp h1, not_lt.mp h2⟩)]
        simp


/-- C6: a target is emitted by the profiler's post-stream filter exactly
when its fragment proportion (fraction of fragments with strictly more
than `min-reads` matches) is at least `min-frags-prop` and its summed
unique matches are at least `min-uniq-reads`; every emitted target carries
these statistics and satisfies both bounds.  (In Go a zero-fragment target
would panic on its first credit, so the filter never sees one.) -/
theorem claim6_theorem (minReads minUReads : Int) (minFragsProp : ℚ)
    (p : Profile) :
    survivorsOf minReads minUReads minFragsProp p
      = p.filterMap (survivorKeep minReads minUReads minFragsProp) ∧
    ∀ t ∈ survivorsOf minReads minUReads minFragsProp p,
      minFragsProp ≤ t.FragsProp ∧ minUReads ≤ (t.SumUniqMatch : Int) ∧
      t.FragsProp =
        ((t.Match.countP (fun c => decide ((minReads : ℚ) < c))) : ℚ) /
          (t.Match.length : ℚ) ∧
      t.SumUniqMatch = t.UniqMatch.sum := by
  have hchar : survivorsOf minReads minUReads minFragsProp p
      = p.filterMap (survivorKeep minReads minUReads minFragsProp) := by
    unfold survivorsOf
    exact survivorsOf_go minReads minUReads minFragsProp p []
  refine ⟨hchar, ?_⟩
  intro t ht
  rw [hchar, List.mem_filterMap] at ht
  obtain ⟨e, _, he⟩ := ht
  unfold survivorKeep at he
  by_cases hc :
      minFragsProp ≤
          ((e.2.Match.countP (fun c => decide ((minReads : ℚ) < c))) : ℚ) /
            (e.2.Match.length : ℚ) ∧
        minUReads ≤ ((e.2.UniqMatch.sum : ℕ) : Int)
  · rw [if_pos hc] at he
    have ht := (Option.some_injective _ he).symm
    subst ht
    exact ⟨hc.1, hc.2, rfl, rfl⟩
  · rw [if_neg hc] at he
    cases he


/-- C6 witness -/
theorem claim6_witness :
    (1 : ℚ) / 2 ≤ exSurvivorA.FragsProp ∧
      (1 : Int) ≤ (exSurvivorA.SumUniqMatch : Int) ∧
      exSurvivorA.FragsProp =
        ((exSurvivorA.Match.countP (fun c => decide (((1 : Int) : ℚ) < c))) : ℚ) /
          (exSurvivorA.Match.length : ℚ) ∧
      exSurvivorA.SumUniqMatch = exSurvivorA.UniqMatch.sum :=
  (claim6_theorem 1 1 ((1 : ℚ) / 2) [("A", exTargetA)]).2 exSurvivorA
    (by with_unfolding_all decide)

/-- C8 amended: the surviving set is determined by the two streaming
statistics alone — any profile entry whose fragment proportion and
unique-read sum pass the two thresholds is emitted; no further
(high-confidence or otherwise) gate exists between the filter and the
sort. -/
theorem claim8_theorem (minReads minUReads : Int) (minFragsProp : ℚ)
    (p : Profile) (k : String) (t : Target) (hmem : (k, t) ∈ p)
    (hfp : minFragsProp ≤
      ((t.Match.countP (fun c => decide ((minReads : ℚ) < c))) : ℚ) /
        (t.Match.length : ℚ))
    (hsu : minUReads ≤ (t.UniqMatch.sum : Int)) :
    ({ t with
        FragsProp :=
          ((t.Match.countP (fun c => decide ((minReads : ℚ) < c))) : ℚ) /
            (t.Match.length : ℚ)
        SumUniqMatch := t.UniqMatch.sum
        MeanAbundance := t.Match.sum / (t.Match.length : ℚ) } : Target)
      ∈ survivorsOf minReads minUReads minFragsProp p := by
  have hchar : survivorsOf minReads minUReads minFragsProp p
      = p.filterMap (survivorKeep minReads minUReads minFragsProp) := by
    unfold survivorsOf
    exact survivorsOf_go minReads minUReads minFragsProp p []
  rw [hchar, List.mem_filterMap]
  refine ⟨(k, t), hmem, ?_⟩
  unfold survivorKeep
  exact if_pos ⟨hfp, hsu⟩

/-- C8 witness -/
theorem claim8_witness :
    ({ exTargetA with
        FragsProp :=
          ((exTargetA.Match.countP (fun c => decide (((1 : Int) : ℚ) < c))) : ℚ) /
            (exTargetA.Match.length : ℚ)
        SumUniqMatch := exTargetA.UniqMatch.sum
        MeanAbundance := exTargetA.Match.sum / (exTargetA.Match.length : ℚ) } :
        Target)
      ∈ survivorsOf 1 1 ((1 : ℚ) / 2) [("A", exTargetA)] :=
  claim8_theorem 1 1 ((1 : ℚ) / 2) [("A", exTargetA)] "A" exTargetA
    (by with_unfolding_all decide)
    (by with_unfolding_all decide)
    (by with_unfolding_all decide)


/-- C8 counterexample -/
theorem claim8_counterexample :
    pipelineNames (1 / 1000) (7 / 10) 1 1 (1 / 2) exLines8 = .ok ["A"] ∧
    parseMatchResult (stringSplitN (exLines8.getD 1 "") 11) (1 / 1000) (7 / 10)
      = .ok (exHit "r1" "A") ∧
    parseMatchResult (stringSplitN (exLines8.getD 2 "") 11) (1 / 1000) (7 / 10)
      = .ok (exHit "r2" "A") ∧
    (exHit "r1" "A").QCov < 4 / 5 ∧ (exHit "r2" "A").QCov < 4 / 5 := by
  refine ⟨?_, ?_, ?_, ?_, ?_⟩
  · with_unfolding_all rfl
  · with_unfolding_all rfl
  · with_unfolding_all rfl
  · with_unfolding_all decide
  · with_unfolding_all decide

/-- C9 counterexample -/
theorem claim9_counterexample :
    profScan (1 / 1000) (7 / 10) exLines9 = .error "failed to parse FPR: abc" ∧
    parseMatchResult (stringSplitN (exLines9.getD 2 "") 11) (1 / 1000) (7 / 10)
      = .fatal "failed to parse FPR: abc" := by
  exact ⟨by with_unfolding_all rfl, by with_unfolding_all rfl⟩

theorem scanFold_cons (maxPFR minQcov : ℚ) (st : ScanState) (l : String)
    (ls : List String) :
    scanFold maxPFR minQcov st (l :: ls)
      = match scanLine maxPFR minQcov st l with
        | .error e => .error e
        | .ok st' => scanFold maxPFR minQcov st' ls := rfl

theorem scanLine_skip (maxPFR minQcov : ℚ) (st : ScanState) (l : String)
    (h : parseMatchResult (stringSplitN l 11) maxPFR minQcov = .skip) :
    scanLine maxPFR minQcov st l = .ok st := by
  unfold scanLine
  rw [h]

theorem scanLine_fatal (maxPFR minQcov : ℚ) (st : ScanState) (l : String)
    (e : String)
    (h : parseMatchResult (stringSplitN l 11) maxPFR minQcov = .fatal e) :
    scanLine maxPFR minQcov st l = .error e := by
  unfold scanLine
  rw [h]

/-- C9 (corrected): a line whose hit fails the FPR/qcov thresholds is
skipped and scanning continues, but a line whose numeric field fails to
parse aborts the whole scan with a fatal error (checkError) — per-line
numeric parse errors are fatal, not recoverable. -/
theorem claim9_theorem (maxPFR minQcov : ℚ) (st : ScanState) (line : String)
    (pre post : List String) :
    (parseMatchResult (stringSplitN line 11) maxPFR minQcov = .skip →
      scanFold maxPFR minQcov st (pre ++ line :: post)
        = scanFold maxPFR minQcov st (pre ++ post)) ∧
    (∀ e, parseMatchResult (stringSplitN line 11) maxPFR minQcov = .fatal e →
      scanFold maxPFR minQcov st (line :: post) = .error e) := by
  constructor
  · intro hskip
    induction pre generalizing st with
    | nil =>
      simp only [List.nil_append]
      rw [scanFold_cons, scanLine_skip maxPFR minQcov st line hskip]
    | cons a rest ih =>
      simp only [List.cons_append]
      rw [scanFold_cons, scanFold_cons]
      rcases h : scanLine maxPFR minQcov st a with e | st'
      · rfl
      · exact ih st'
  · intro e hfatal
    rw [scanFold_cons, scanLine_fatal maxPFR minQcov st line e hfatal]

/-- C9 witness -/
theorem claim9_witness :
    parseMatchResult
        (stringSplitN "q\t1\t1\t1\t1\tA\t0\t1\t1\t0.9\tx" 11) (1 / 2) (1 / 2)
      = .skip ∧
    scanFold (1 / 2) (1 / 2) ⟨[], "", []⟩
        (["r1\t100\t80\t0.2\t1\tA\t0\t1\t60\t0.9\tx"] ++
          "q\t1\t1\t1\t1\tA\t0\t1\t1\t0.9\tx" ::
            ["r3\t100\t80\t0.2\t1\tA\t0\t1\t60\t0.9\tx"])
      = scanFold (1 / 2) (1 / 2) ⟨[], "", []⟩
          (["r1\t100\t80\t0.2\t1\tA\t0\t1\t60\t0.9\tx"] ++
            ["r3\t100\t80\t0.2\t1\tA\t0\t1\t60\t0.9\tx"]) :=
  ⟨by with_unfolding_all rfl,
    (claim9_theorem (1 / 2) (1 / 2) ⟨[], "", []⟩
        "q\t1\t1\t1\t1\tA\t0\t1\t1\t0.9\tx"
        ["r1\t100\t80\t0.2\t1\tA\t0\t1\t60\t0.9\tx"]
        ["r3\t100\t80\t0.2\t1\tA\t0\t1\t60\t0.9\tx"]).1
      (by with_unfolding_all rfl)⟩


theorem updAt_length {α : Type} (l : List α) (i : ℕ) (f : α → α) :
    (updAt l i f).length = l.length := by
  induction l generalizing i with
  | nil => rfl
  | cons a l ih =>
    cases i with
    | zero => rfl
    | succ n => simpa [updAt] using ih n

theorem updAt_getD_eq {α : Type} (l : List α) (i : ℕ) (f : α → α) (d : α)
    (h : i < l.length) :
    (updAt l i f).getD i d = f (l.getD i d) := by
  induction l generalizing i with
  | nil => simp at h
  | cons a l ih =>
    cases i with
    | zero => rfl
    | succ n =>
      simp only [List.length_cons, Nat.succ_lt_succ_iff] at h
      simpa [updAt] using ih n h

theorem updAt_getD_ne {α : Type} (l : List α) (i j : ℕ) (f : α → α) (d : α)
    (h : i ≠ j) :
    (updAt l i f).getD j d = l.getD j d := by
  induction l generalizing i j with
  | nil => rfl
  | cons a l ih =>
    cases i with
    | zero =>
      cases j with
      | zero => exact absurd rfl h
      | succ n => rfl
    | succ n =>
      cases j with
      | zero => rfl
      | succ k =>
        simpa [updAt] using ih n k (by omega)

theorem lookupT_storeT_self {α : Type} (p : List (String × α)) (k : String)
    (v : α) : lookupT (storeT p k v) k = some v := by
  induction p with
  | nil => simp [storeT, lookupT]
  | cons e rest ih =>
    by_cases h : e.1 = k
    · simp [storeT, h, lookupT]
    · simp [storeT, h, lookupT, ih]

theorem lookupT_storeT_ne {α : Type} (p : List (String × α)) (k q : String)
    (v : α) (h : k ≠ q) : lookupT (storeT p k v) q = lookupT p q := by
  induction p with
  | nil => simp [storeT, lookupT, h]
  | cons e rest ih =>
    by_cases he : e.1 = k
    · simp [storeT, he, lookupT, h]
    · simp [storeT, he, lookupT, ih]

theorem storeT_storeT {α : Type} (p : List (String × α)) (k : String)
    (a b : α) : storeT (storeT p k a) k b = storeT p k b := by
  induction p with
  | nil => simp [storeT]
  | cons e rest ih =>
    by_cases he : e.1 = k
    · simp [storeT, he]
    · simp [storeT, he, ih]

theorem storeT_lookup_self {α : Type} (p : List (String × α)) (k : String)
    (v : α) (h : lookupT p k = some v) : storeT p k v = p := by
  induction p with
  | nil => simp [lookupT] at h
  | cons e rest ih =>
    by_cases he : e.1 = k
    · obtain ⟨k', v'⟩ := e
      simp only [lookupT] at h
      rw [if_pos he] at h
      cases h
      simp_all [storeT]
    · obtain ⟨k', v'⟩ := e
      simp only [lookupT] at h
      rw [if_neg he] at h
      simp [storeT, he, ih h]


theorem lookupT_insertHit (gs : List (String × List MatchResult))
    (m : MatchResult) (t : String) :
    lookupT (insertHit gs m) t =
      if m.Target = t then
        match lookupT gs t with
        | some ms => some (ms ++ [m])
        | none => some [m]
      else lookupT gs t := by
  induction gs with
  | nil =>
    by_cases h : m.Target = t
    · simp [insertHit, lookupT, h]
    · simp [insertHit, lookupT, h]
  | cons e rest ih =>
    obtain ⟨k, ms⟩ := e
    by_cases hk : k = m.Target
    · subst hk
      by_cases ht : m.Target = t
      · simp [insertHit, lookupT, ht]
      · simp [insertHit, lookupT, ht]
    · by_cases ht : k = t
      · subst ht
        have hmt : ¬ m.Target = k := fun hc => hk hc.symm
        simp [insertHit, hk, lookupT, hmt]
      · simp [insertHit, hk, lookupT, ht, ih]

theorem lookupT_groupFold (hits : List MatchResult)
    (gs : List (String × List MatchResult)) (t : String) :
    lookupT (hits.foldl insertHit gs) t =
      match lookupT gs t with
      | some ms0 => some (ms0 ++ hits.filter (fun m => m.Target = t))
      | none =>
        if hits.filter (fun m => m.Target = t) = [] then none
        else some (hits.filter (fun m => m.Target = t)) := by
  induction hits generalizing gs with
  | nil =>
    rcases h : lookupT gs t with _ | ms0 <;> simp [h]
  | cons m hits ih =>
    simp only [List.foldl_cons]
    rw [ih, lookupT_insertHit]
    by_cases hmt : m.Target = t
    · rw [if_pos hmt]
      rcases h : lookupT gs t with _ | ms0
      · simp [List.filter_cons, hmt]
      · simp [List.filter_cons, hmt]
    · rw [if_neg hmt]
      rcases h : lookupT gs t with _ | ms0
      · simp [List.filter_cons, hmt]
      · simp [List.filter_cons, hmt]

theorem lookupT_groupByTarget (hits : List MatchResult) (t : String) :
    lookupT (groupByTarget hits) t =
      if hits.filter (fun m => m.Target = t) = [] then none
      else some (hits.filter (fun m => m.Target = t)) := by
  unfold groupByTarget
  rw [lookupT_groupFold]
  rfl

theorem lookupT_none_iff {α : Type} (gs : List (String × α)) (t : String) :
    lookupT gs t = none ↔ ∀ e ∈ gs, e.1 ≠ t := by
  induction gs with
  | nil => simp [lookupT]
  | cons e rest ih =>
    obtain ⟨k, v⟩ := e
    by_cases hk : k = t
    · simp [lookupT, hk]
    · simp [lookupT, hk, ih]

theorem insertHit_keys (gs : List (String × List MatchResult))
    (m : MatchResult) :
    (insertHit gs m).map Prod.fst = gs.map Prod.fst ∨
    (insertHit gs m).map Prod.fst = gs.map Prod.fst ++ [m.Target] := by
  induction gs with
  | nil => right; rfl
  | cons e rest ih =>
    obtain ⟨k, ms⟩ := e
    by_cases hk : k = m.Target
    · left; simp [insertHit, hk]
    · rcases ih with h | h
      · left; simp [insertHit, hk, h]
      · right; simp [insertHit, hk, h]

theorem insertHit_keys_nodup (gs : List (String × List MatchResult))
    (m : MatchResult) (h : (gs.map Prod.fst).Nodup) :
    ((insertHit gs m).map Prod.fst).Nodup := by
  induction gs with
  | nil => simp [insertHit]
  | cons e rest ih =>
    obtain ⟨k, ms⟩ := e
    simp only [List.map_cons, List.nodup_cons] at h
    by_cases hk : k = m.Target
    · subst hk
      have hrw : insertHit ((m.Target, ms) :: rest) m
          = (m.Target, ms ++ [m]) :: rest := by
        simp [insertHit]
      rw [hrw]
      simp only [List.map_cons, List.nodup_cons]
      exact ⟨h.1, h.2⟩
    · have hrw : insertHit ((k, ms) :: rest) m
          = (k, ms) :: insertHit rest m := by
        simp [insertHit, hk]
      rw [hrw]
      simp only [List.map_cons, List.nodup_cons]
      refine ⟨?_, ih h.2⟩
      intro hc
      rcases insertHit_keys rest m with he | he
      · rw [he] at hc; exact h.1 hc
      · rw [he] at hc
        rcases List.mem_append.mp hc with hc | hc
        · exact h.1 hc
        · simp at hc; exact hk hc

theorem groupByTarget_keys_nodup (hits : List MatchResult) :
    ((groupByTarget hits).map Prod.fst).Nodup := by
  unfold groupByTarget
  have : ∀ gs : List (String × List MatchResult), (gs.map Prod.fst).Nodup →
      ((hits.foldl insertHit gs).map Prod.fst).Nodup := by
    induction hits with
    | nil => intro gs h; simpa using h
    | cons m hits ih =>
      intro gs h
      exact ih (insertHit gs m) (insertHit_keys_nodup gs m h)
  exact this [] (by simp)

theorem lookup_decomp {α : Type} (gs : List (String × α)) (t : String) (v : α)
    (hnd : (gs.map Prod.fst).Nodup) (h : lookupT gs t = some v) :
    ∃ gs1 gs2, gs = gs1 ++ (t, v) :: gs2 ∧
      (∀ e ∈ gs1, e.1 ≠ t) ∧ (∀ e ∈ gs2, e.1 ≠ t) := by
  induction gs with
  | nil => simp [lookupT] at h
  | cons e rest ih =>
    obtain ⟨k, v'⟩ := e
    simp only [List.map_cons, List.nodup_cons] at hnd
    by_cases hk : k = t
    · subst hk
      simp only [lookupT, if_pos rfl] at h
      cases h
      refine ⟨[], rest, by simp, by simp, ?_⟩
      intro e he hc
      exact hnd.1 (by
        rw [← hc]
        exact List.mem_map.mpr ⟨e, he, rfl⟩)
    · simp only [lookupT, if_neg hk] at h
      obtain ⟨gs1, gs2, hsplit, h1, h2⟩ := ih hnd.2 h
      exact ⟨(k, v') :: gs1, gs2, by simp [hsplit], by
        intro e he
        rcases List.mem_cons.mp he with rfl | he
        · exact hk
        · exact h1 e he, h2⟩


theorem updAtZ_length {α : Type} (l : List α) (i : Int) (f : α → α) :
    (updAtZ l i f).length = l.length := by
  unfold updAtZ
  by_cases h : 0 ≤ i
  · simp [h, updAt_length]
  · simp [h]

theorem creditOne_Match_length (n : ℕ) (m : MatchResult) (t : Target) :
    (creditOne n m t).Match.length = t.Match.length := by
  simp [creditOne, updAtZ_length]

theorem creditOne_UniqMatch_length (n : ℕ) (m : MatchResult) (t : Target) :
    (creditOne n m t).UniqMatch.length = t.UniqMatch.length := by
  unfold creditOne
  by_cases h : n = 1 <;> simp [h, updAtZ_length]

theorem tgFold_Match_length (n : ℕ) (ms : List MatchResult) (tg : Target) :
    ((ms.foldl (fun tg m => creditOne n m tg) tg)).Match.length
      = tg.Match.length := by
  induction ms generalizing tg with
  | nil => rfl
  | cons m ms ih => simp [ih, creditOne_Match_length]

theorem tgFold_UniqMatch_length (n : ℕ) (ms : List MatchResult) (tg : Target) :
    ((ms.foldl (fun tg m => creditOne n m tg) tg)).UniqMatch.length
      = tg.UniqMatch.length := by
  induction ms generalizing tg with
  | nil => rfl
  | cons m ms ih => simp [ih, creditOne_UniqMatch_length]

theorem creditOne_Match_getD (n : ℕ) (m : MatchResult) (t : Target) (f : ℕ)
    (h0 : 0 ≤ m.FragIdx) (hlt : m.FragIdx < (t.Match.length : Int)) :
    (creditOne n m t).Match.getD f 0
      = t.Match.getD f 0 +
          (if m.FragIdx = (f : Int) then 1 / (n : ℚ) else 0) := by
  have hproj : (creditOne n m t).Match
      = updAtZ t.Match m.FragIdx (fun c => c + 1 / (n : ℚ)) := rfl
  rw [hproj]
  unfold updAtZ
  rw [if_pos h0]
  by_cases hf : m.FragIdx = (f : Int)
  · have htn : m.FragIdx.toNat = f := by omega
    rw [htn, updAt_getD_eq _ _ _ _ (by omega), if_pos hf]
  · have htn : m.FragIdx.toNat ≠ f := by omega
    rw [updAt_getD_ne _ _ _ _ _ htn, if_neg hf]
    ring

theorem creditOne_UniqMatch_getD (n : ℕ) (m : MatchResult) (t : Target)
    (f : ℕ) (h0 : 0 ≤ m.FragIdx)
    (hlt : m.FragIdx < (t.UniqMatch.length : Int)) :
    (creditOne n m t).UniqMatch.getD f 0
      = t.UniqMatch.getD f 0 +
          (if n = 1 ∧ m.FragIdx = (f : Int) then 1 else 0) := by
  have hproj : (creditOne n m t).UniqMatch
      = if n = 1 then updAtZ t.UniqMatch m.FragIdx (fun c => c + 1)
        else t.UniqMatch := rfl
  rw [hproj]
  by_cases hn : n = 1
  · rw [if_pos hn]
    unfold updAtZ
    rw [if_pos h0]
    by_cases hf : m.FragIdx = (f : Int)
    · have htn : m.FragIdx.toNat = f := by omega
      rw [htn, updAt_getD_eq _ _ _ _ (by omega), if_pos ⟨hn, hf⟩]
    · have htn : m.FragIdx.toNat ≠ f := by omega
      rw [updAt_getD_ne _ _ _ _ _ htn, if_neg (fun hc => hf hc.2)]
      omega
  · rw [if_neg hn, if_neg (fun hc => hn hc.1)]
    omega

theorem tgFold_Match_getD (n : ℕ) (ms : List MatchResult) (tg : Target)
    (f : ℕ)
    (hb : ∀ m ∈ ms, 0 ≤ m.FragIdx ∧ m.FragIdx < (tg.Match.length : Int)) :
    ((ms.foldl (fun tg m => creditOne n m tg) tg)).Match.getD f 0
      = tg.Match.getD f 0 +
          ((ms.countP (fun m => m.FragIdx = (f : Int))) : ℚ) * (1 / (n : ℚ)) := by
  induction ms generalizing tg with
  | nil => simp
  | cons m ms ih =>
    simp only [List.foldl_cons]
    have hm := hb m (by simp)
    rw [ih (creditOne n m tg)
        (by
          intro m' hm'
          rw [creditOne_Match_length]
          exact hb m' (by simp [hm']))]
    rw [creditOne_Match_getD n m tg f hm.1 hm.2]
    rw [List.countP_cons]
    by_cases hf : m.FragIdx = (f : Int)
    · simp only [hf, if_pos rfl, if_true, decide_True]
      push_cast
      ring
    · simp only [if_neg hf, hf, decide_False]
      push_cast
      ring
theorem tgFold_UniqMatch_getD (n : ℕ) (ms : List MatchResult) (tg : Target)
    (f : ℕ)
    (hb : ∀ m ∈ ms, 0 ≤ m.FragIdx ∧ m.FragIdx < (tg.UniqMatch.length : Int)) :
    ((ms.foldl (fun tg m => creditOne n m tg) tg)).UniqMatch.getD f 0
      = tg.UniqMatch.getD f 0 +
          (if n = 1 then ms.countP (fun m => m.FragIdx = (f : Int)) else 0) := by
  induction ms generalizing tg with
  | nil => simp
  | cons m ms ih =>
    simp only [List.foldl_cons]
    have hm := hb m (by simp)
    rw [ih (creditOne n m tg)
        (by
          intro m' hm'
          rw [creditOne_UniqMatch_length]
          exact hb m' (by simp [hm']))]
    rw [creditOne_UniqMatch_getD n m tg f hm.1 hm.2]
    rw [List.countP_cons]
    by_cases hn : n = 1
    · by_cases hf : m.FragIdx = (f : Int)
      · simp [hn, hf]
        omega
      · simp [hn, hf]
    · simp [hn]


theorem creditFold_lookup_ne (n : ℕ) (k q : String) (ms : List MatchResult)
    (p : Profile) (h : k ≠ q) :
    lookupT
        (ms.foldl
          (fun p m =>
            storeT p k (creditOne n m ((lookupT p k).getD (makeTarget m)))) p)
        q
      = lookupT p q := by
  induction ms generalizing p with
  | nil => rfl
  | cons m ms ih =>
    simp only [List.foldl_cons]
    rw [ih, lookupT_storeT_ne _ _ _ _ h]

theorem flushGroup_lookup_ne (p : Profile) (g : String × List MatchResult)
    (q : String) (h : g.1 ≠ q) :
    lookupT (flushGroup p g) q = lookupT p q := by
  obtain ⟨k, ms⟩ := g
  exact creditFold_lookup_ne ms.length k q ms p h

theorem creditFold_of_lookup_some (n : ℕ) (k : String)
    (ms : List MatchResult) (p : Profile) (tg : Target)
    (h : lookupT p k = some tg) :
    ms.foldl
        (fun p m =>
          storeT p k (creditOne n m ((lookupT p k).getD (makeTarget m)))) p
      = storeT p k (ms.foldl (fun tg m => creditOne n m tg) tg) := by
  induction ms generalizing p tg with
  | nil => simp [storeT_lookup_self p k tg h]
  | cons m ms ih =>
    simp only [List.foldl_cons]
    rw [h]
    have hstep :
        lookupT (storeT p k (creditOne n m ((some tg).getD (makeTarget m)))) k
          = some (creditOne n m tg) := by
      simp [lookupT_storeT_self]
    rw [ih _ _ hstep, storeT_storeT]

theorem creditFold_of_lookup_none (n : ℕ) (k : String) (m : MatchResult)
    (ms : List MatchResult) (p : Profile)
    (h : lookupT p k = none) :
    (m :: ms).foldl
        (fun p m =>
          storeT p k (creditOne n m ((lookupT p k).getD (makeTarget m)))) p
      = storeT p k
          (ms.foldl (fun tg m => creditOne n m tg)
            (creditOne n m (makeTarget m))) := by
  simp only [List.foldl_cons]
  rw [h]
  have hstep :
      lookupT (storeT p k (creditOne n m ((none : Option Target).getD (makeTarget m)))) k
        = some (creditOne n m (makeTarget m)) := by
    simp [lookupT_storeT_self]
  rw [creditFold_of_lookup_some n k ms _ _ hstep, storeT_storeT]

theorem flushFold_lookup_ne (es : List (String × List MatchResult))
    (p : Profile) (q : String) (h : ∀ e ∈ es, e.1 ≠ q) :
    lookupT (es.foldl flushGroup p) q = lookupT p q := by
  induction es generalizing p with
  | nil => rfl
  | cons e es ih =>
    simp only [List.foldl_cons]
    rw [ih _ (fun e' he' => h e' (by simp [he'])),
      flushGroup_lookup_ne _ _ _ (h e (by simp))]


theorem replicate_getD {α : Type} (n f : ℕ) (a : α) :
    (List.replicate n a).getD f a = a := by
  induction n generalizing f with
  | zero => cases f <;> rfl
  | succ k ih =>
    cases f with
    | zero => rfl
    | succ j => simp [List.replicate, ih j]

theorem countFrag_eq_filter_countP (hits : List MatchResult) (t : String)
    (f : Int) :
    countFragHits hits t f
      = (hits.filter (fun m => m.Target = t)).countP
          (fun m => m.FragIdx = f) := by
  unfold countFragHits
  simp only [Bool.decide_and]
  induction hits with
  | nil => rfl
  | cons m hits ih =>
    by_cases ht : m.Target = t
    · by_cases hfi : m.FragIdx = f
      · simp [List.filter_cons, List.countP_cons, ht, hfi, ih]
      · simp [List.filter_cons, List.countP_cons, ht, hfi, ih]
    · simp [List.filter_cons, ht, ih]

theorem countFrag_le_countTarget (hits : List MatchResult) (t : String)
    (f : Int) : countFragHits hits t f ≤ countTargetHits hits t := by
  rw [countFrag_eq_filter_countP]
  unfold countTargetHits
  exact List.countP_le_length _

theorem targetMatchAt_of_lookup_some (p : Profile) (t : String) (f : ℕ)
    (tg : Target) (h : lookupT p t = some tg) :
    targetMatchAt p t f = tg.Match.getD f 0 := by
  unfold targetMatchAt
  rw [h]
  rfl

theorem targetMatchAt_of_lookup_none (p : Profile) (t : String) (f : ℕ)
    (h : lookupT p t = none) : targetMatchAt p t f = 0 := by
  unfold targetMatchAt
  rw [h]
  rfl

theorem targetUniqAt_of_lookup_some (p : Profile) (t : String) (f : ℕ)
    (tg : Target) (h : lookupT p t = some tg) :
    targetUniqAt p t f = tg.UniqMatch.getD f 0 := by
  unfold targetUniqAt
  rw [h]
  rfl

theorem targetUniqAt_of_lookup_none (p : Profile) (t : String) (f : ℕ)
    (h : lookupT p t = none) : targetUniqAt p t f = 0 := by
  unfold targetUniqAt
  rw [h]
  rfl


theorem makeTarget_Match_length (m : MatchResult) (L : ℕ)
    (h : m.IdxNum = (L : Int)) : (makeTarget m).Match.length = L := by
  simp [makeTarget, h]

theorem makeTarget_UniqMatch_length (m : MatchResult) (L : ℕ)
    (h : m.IdxNum = (L : Int)) : (makeTarget m).UniqMatch.length = L := by
  simp [makeTarget, h]

theorem flushGroup_values (p1 : Profile) (t : String) (ms : List MatchResult)
    (f L : ℕ)
    (hms : ∀ m ∈ ms, m.IdxNum = (L : Int) ∧ 0 ≤ m.FragIdx ∧
      m.FragIdx < (L : Int))
    (hbase : ∀ tg, lookupT p1 t = some tg →
      tg.Match.length = L ∧ tg.UniqMatch.length = L) :
    targetMatchAt (flushGroup p1 (t, ms)) t f
      = targetMatchAt p1 t f +
          ((ms.countP (fun m => m.FragIdx = (f : Int))) : ℚ) *
            (1 / (ms.length : ℚ)) ∧
    targetUniqAt (flushGroup p1 (t, ms)) t f
      = targetUniqAt p1 t f +
          (if ms.length = 1 then ms.countP (fun m => m.FragIdx = (f : Int))
           else 0) := by
  rcases hmscase : ms with _ | ⟨m₁, rest⟩
  · constructor
    · show targetMatchAt p1 t f = _
      simp
    · show targetUniqAt p1 t f = _
      simp
  · subst hmscase
    rcases hlkp1 : lookupT p1 t with _ | tg
    · have hfg := creditFold_of_lookup_none (m₁ :: rest).length t m₁ rest p1 hlkp1
      have hfg' : flushGroup p1 (t, m₁ :: rest)
          = storeT p1 t
              ((m₁ :: rest).foldl
                (fun tg m => creditOne (m₁ :: rest).length m tg)
                (makeTarget m₁)) := hfg
      have hb : ∀ m ∈ m₁ :: rest, 0 ≤ m.FragIdx ∧
          m.FragIdx < ((makeTarget m₁).Match.length : Int) := by
        intro m hm
        rw [makeTarget_Match_length m₁ L (hms m₁ (by simp)).1]
        exact ⟨(hms m hm).2.1, (hms m hm).2.2⟩
      have hbu : ∀ m ∈ m₁ :: rest, 0 ≤ m.FragIdx ∧
          m.FragIdx < ((makeTarget m₁).UniqMatch.length : Int) := by
        intro m hm
        rw [makeTarget_UniqMatch_length m₁ L (hms m₁ (by simp)).1]
        exact ⟨(hms m hm).2.1, (hms m hm).2.2⟩
      constructor
      · rw [hfg',
          targetMatchAt_of_lookup_some _ _ _ _ (lookupT_storeT_self p1 t _),
          tgFold_Match_getD _ _ _ _ hb,
          targetMatchAt_of_lookup_none _ _ _ hlkp1]
        have : (makeTarget m₁).Match.getD f 0 = 0 := by
          simp [makeTarget, replicate_getD]
        rw [this]
      · rw [hfg',
          targetUniqAt_of_lookup_some _ _ _ _ (lookupT_storeT_self p1 t _),
          tgFold_UniqMatch_getD _ _ _ _ hbu,
          targetUniqAt_of_lookup_none _ _ _ hlkp1]
        have : (makeTarget m₁).UniqMatch.getD f 0 = 0 := by
          simp [makeTarget, replicate_getD]
        rw [this]
    · have hfg : flushGroup p1 (t, m₁ :: rest)
          = storeT p1 t
              ((m₁ :: rest).foldl
                (fun tg m => creditOne (m₁ :: rest).length m tg) tg) :=
        creditFold_of_lookup_some (m₁ :: rest).length t (m₁ :: rest) p1 tg hlkp1
      have hlen := hbase tg hlkp1
      have hb : ∀ m ∈ m₁ :: rest, 0 ≤ m.FragIdx ∧
          m.FragIdx < ((tg.Match.length : ℕ) : Int) := by
        intro m hm
        rw [hlen.1]
        exact ⟨(hms m hm).2.1, (hms m hm).2.2⟩
      have hbu : ∀ m ∈ m₁ :: rest, 0 ≤ m.FragIdx ∧
          m.FragIdx < ((tg.UniqMatch.length : ℕ) : Int) := by
        intro m hm
        rw [hlen.2]
        exact ⟨(hms m hm).2.1, (hms m hm).2.2⟩
      constructor
      · rw [hfg,
          targetMatchAt_of_lookup_some _ _ _ _ (lookupT_storeT_self p1 t _),
          tgFold_Match_getD _ _ _ _ hb,
          targetMatchAt_of_lookup_some _ _ _ _ hlkp1]
      · rw [hfg,
          targetUniqAt_of_lookup_some _ _ _ _ (lookupT_storeT_self p1 t _),
          tgFold_UniqMatch_getD _ _ _ _ hbu,
          targetUniqAt_of_lookup_some _ _ _ _ hlkp1]


/-- C1 amended: for one query with hit list `hits`, each hit on target `t`
at fragment `f` credits `1/|H_{Q,t}|` to `match[t][f]`, where `|H_{Q,t}|`
is the number of hits of this query on that same target (the length of the
bucket `matches[t]`), and `unique_match[t][f]` is incremented by 1 exactly
when the query has a single hit on `t` and that hit is at fragment `f`. -/
theorem claim1_theorem (p : Profile) (hits : List MatchResult) (t : String)
    (f L : ℕ)
    (hhits : ∀ m ∈ hits, m.IdxNum = (L : Int) ∧ 0 ≤ m.FragIdx ∧
      m.FragIdx < (L : Int))
    (hp : ∀ tg, lookupT p t = some tg →
      tg.Match.length = L ∧ tg.UniqMatch.length = L) :
    targetMatchAt (creditQuery p hits) t f
      = targetMatchAt p t f +
          (countFragHits hits t (f : Int) : ℚ) /
            (countTargetHits hits t : ℚ) ∧
    targetUniqAt (creditQuery p hits) t f
      = targetUniqAt p t f +
          (if countTargetHits hits t = 1 ∧ countFragHits hits t (f : Int) = 1
           then 1 else 0) := by
  have hcf := countFrag_eq_filter_countP hits t (f : Int)
  have hct : countTargetHits hits t
      = (hits.filter (fun m => m.Target = t)).length := rfl
  by_cases hnil : hits.filter (fun m => m.Target = t) = []
  · have hlk : lookupT (groupByTarget hits) t = none := by
      rw [lookupT_groupByTarget, if_pos hnil]
    have hkeys : ∀ e ∈ groupByTarget hits, e.1 ≠ t :=
      (lookupT_none_iff _ _).mp hlk
    have hpre : lookupT (creditQuery p hits) t = lookupT p t :=
      flushFold_lookup_ne (groupByTarget hits) p t hkeys
    have hct0 : countTargetHits hits t = 0 := by
      rw [hct, hnil]
      rfl
    have hcf0 : countFragHits hits t (f : Int) = 0 := by
      rw [hcf, hnil]
      rfl
    constructor
    · rw [hct0, hcf0]
      unfold targetMatchAt
      rw [hpre]
      norm_num
    · rw [hct0, hcf0]
      unfold targetUniqAt
      rw [hpre, if_neg (by omega)]
      norm_num
  · have hlk : lookupT (groupByTarget hits) t
        = some (hits.filter (fun m => m.Target = t)) := by
      rw [lookupT_groupByTarget, if_neg hnil]
    obtain ⟨es1, es2, hsplit, h1, h2⟩ :=
      lookup_decomp _ _ _ (groupByTarget_keys_nodup hits) hlk
    have hexp : creditQuery p hits
        = es2.foldl flushGroup
            (flushGroup (es1.foldl flushGroup p)
              (t, hits.filter (fun m => m.Target = t))) := by
      unfold creditQuery flushMatches
      rw [hsplit, List.foldl_append, List.foldl_cons]
    have hlk1 : lookupT (es1.foldl flushGroup p) t = lookupT p t :=
      flushFold_lookup_ne es1 p t h1
    have hmsall : ∀ m ∈ hits.filter (fun m => m.Target = t),
        m.IdxNum = (L : Int) ∧ 0 ≤ m.FragIdx ∧ m.FragIdx < (L : Int) := by
      intro m hm
      exact hhits m (List.mem_of_mem_filter hm)
    have hbase : ∀ tg, lookupT (es1.foldl flushGroup p) t = some tg →
        tg.Match.length = L ∧ tg.UniqMatch.length = L := by
      intro tg htg
      rw [hlk1] at htg
      exact hp tg htg
    have hval := flushGroup_values (es1.foldl flushGroup p) t
      (hits.filter (fun m => m.Target = t)) f L hmsall hbase
    have hpost : lookupT (creditQuery p hits) t
        = lookupT (flushGroup (es1.foldl flushGroup p)
            (t, hits.filter (fun m => m.Target = t))) t := by
      rw [hexp]
      exact flushFold_lookup_ne es2 _ t h2
    have hmid1 : targetMatchAt (creditQuery p hits) t f
        = targetMatchAt (flushGroup (es1.foldl flushGroup p)
            (t, hits.filter (fun m => m.Target = t))) t f := by
      unfold targetMatchAt
      rw [hpost]
    have hmid2 : targetUniqAt (creditQuery p hits) t f
        = targetUniqAt (flushGroup (es1.foldl flushGroup p)
            (t, hits.filter (fun m => m.Target = t))) t f := by
      unfold targetUniqAt
      rw [hpost]
    have hpre1 : targetMatchAt (es1.foldl flushGroup p) t f
        = targetMatchAt p t f := by
      unfold targetMatchAt
      rw [hlk1]
    have hpre2 : targetUniqAt (es1.foldl flushGroup p) t f
        = targetUniqAt p t f := by
      unfold targetUniqAt
      rw [hlk1]
    constructor
    · rw [hmid1, hval.1, hpre1, hcf, hct, mul_one_div]
    · rw [hmid2, hval.2, hpre2, hcf, hct]
      congr 1
      have hle : (hits.filter (fun m => m.Target = t)).countP
          (fun m => m.FragIdx = (f : Int))
            ≤ (hits.filter (fun m => m.Target = t)).length :=
        List.countP_le_length _
      by_cases hone : (hits.filter (fun m => m.Target = t)).length = 1
      · rw [if_pos hone]
        by_cases hcnt : (hits.filter (fun m => m.Target = t)).countP
            (fun m => m.FragIdx = (f : Int)) = 1
        · rw [if_pos ⟨hone, hcnt⟩, hcnt]
        · rw [if_neg (fun hc => hcnt hc.2)]
          omega
      · rw [if_neg hone, if_neg (fun hc => hone hc.1)]


/-- C1 witness -/
theorem claim1_witness :
    targetMatchAt (creditQuery [] [exHit "r1" "A", exHit "r1" "B"]) "A" 0
      = targetMatchAt ([] : Profile) "A" 0 +
          (countFragHits [exHit "r1" "A", exHit "r1" "B"] "A" ((0 : ℕ) : Int) : ℚ) /
            (countTargetHits [exHit "r1" "A", exHit "r1" "B"] "A" : ℚ) ∧
    targetUniqAt (creditQuery [] [exHit "r1" "A", exHit "r1" "B"]) "A" 0
      = targetUniqAt ([] : Profile) "A" 0 +
          (if countTargetHits [exHit "r1" "A", exHit "r1" "B"] "A" = 1 ∧
              countFragHits [exHit "r1" "A", exHit "r1" "B"] "A" ((0 : ℕ) : Int) = 1
           then 1 else 0) :=
  claim1_theorem [] [exHit "r1" "A", exHit "r1" "B"] "A" 0 1
    (by with_unfolding_all decide)
    (by intro tg h; simp [lookupT] at h)


theorem orAt_testBit_self (s : ℕ → ℕ) (pos b : ℕ) :
    Nat.testBit ((orAt s pos (1 <<< b)) pos) b = true := by
  unfold orAt
  rw [if_pos rfl, Nat.testBit_or]
  have : (1 <<< b) = 2 ^ b := by
    rw [Nat.shiftLeft_eq, one_mul]
  rw [this, Nat.testBit_two_pow_self]
  simp

theorem orAt_testBit_mono (s : ℕ → ℕ) (pos b r i : ℕ)
    (h : Nat.testBit (s r) i = true) :
    Nat.testBit ((orAt s pos b) r) i = true := by
  unfold orAt
  by_cases hr : r = pos
  · rw [if_pos hr, Nat.testBit_or, h]
    simp
  · rw [if_neg hr]
    exact h

theorem fillFile_testBit_mono (hashed : Bool) (hash64 : ℕ → ℕ)
    (mask b : ℕ) (s : ℕ → ℕ) (codes : List ℕ) (r i : ℕ)
    (h : Nat.testBit (s r) i = true) :
    Nat.testBit ((fillFile hashed hash64 mask b s codes) r) i = true := by
  induction codes generalizing s with
  | nil => exact h
  | cons c codes ih =>
    exact ih _ (orAt_testBit_mono s _ b r i h)

theorem fillFile_testBit_self (hashed : Bool) (hash64 : ℕ → ℕ)
    (mask b : ℕ) (s : ℕ → ℕ) (codes : List ℕ) (x : ℕ) (hx : x ∈ codes) :
    Nat.testBit
        ((fillFile hashed hash64 mask (1 <<< b) s codes)
          ((if hashed then x else hash64 x) &&& mask)) b = true := by
  induction codes generalizing s with
  | nil => cases hx
  | cons c codes ih =>
    rcases List.mem_cons.mp hx with rfl | hx
    · exact fillFile_testBit_mono hashed hash64 mask (1 <<< b) _ codes _ b
        (orAt_testBit_self s _ b)
    · exact ih _ hx

theorem fillColumn_testBit_mono (hashed : Bool) (hash64 : ℕ → ℕ)
    (mask b : ℕ) (s : ℕ → ℕ) (files : List (List ℕ)) (r i : ℕ)
    (h : Nat.testBit (s r) i = true) :
    Nat.testBit ((fillColumn hashed hash64 mask b s files) r) i = true := by
  induction files generalizing s with
  | nil => exact h
  | cons fl files ih =>
    exact ih _ (fillFile_testBit_mono hashed hash64 mask b s fl r i h)

theorem fillColumn_testBit_self (hashed : Bool) (hash64 : ℕ → ℕ)
    (mask b : ℕ) (s : ℕ → ℕ) (files : List (List ℕ)) (fl : List ℕ) (x : ℕ)
    (hfl : fl ∈ files) (hx : x ∈ fl) :
    Nat.testBit
        ((fillColumn hashed hash64 mask (1 <<< b) s files)
          ((if hashed then x else hash64 x) &&& mask)) b = true := by
  induction files generalizing s with
  | nil => cases hfl
  | cons fl' files ih =>
    rcases List.mem_cons.mp hfl with rfl | hfl
    · exact fillColumn_testBit_mono hashed hash64 mask (1 <<< b) _ files _ b
        (fillFile_testBit_self hashed hash64 mask b s fl x hx)
    · exact ih _ hfl

theorem enumFromFill_testBit (hashed : Bool) (hash64 : ℕ → ℕ) (mask : ℕ)
    (groups : List (List (List ℕ))) (n k : ℕ) (g : List (List ℕ))
    (hk : groups.get? k = some g) (fl : List ℕ) (x : ℕ)
    (hfl : fl ∈ g) (hx : x ∈ fl) (s : ℕ → ℕ) :
    Nat.testBit
        (((List.enumFrom n groups).foldl
            (fun s kg => fillColumn hashed hash64 mask (1 <<< (7 - kg.1)) s kg.2)
            s)
          ((if hashed then x else hash64 x) &&& mask)) (7 - (n + k)) = true := by
  induction groups generalizing n k s with
  | nil => simp at hk
  | cons g0 groups ih =>
    cases k with
    | zero =>
      simp only [List.get?] at hk
      have hgeq : g0 = g := by injection hk
      subst hgeq
      simp only [List.enumFrom, List.foldl_cons]
      have hset := fillColumn_testBit_self hashed hash64 mask (7 - n) s g0 fl x hfl hx
      have hmono : ∀ (s' : ℕ → ℕ) r i, Nat.testBit (s' r) i = true →
          Nat.testBit
              (((List.enumFrom (n + 1) groups).foldl
                  (fun s kg =>
                    fillColumn hashed hash64 mask (1 <<< (7 - kg.1)) s kg.2) s') r)
              i = true := by
        intro s' r i h
        clear ih hset
        induction groups generalizing s' n with
        | nil => exact h
        | cons g1 groups ih2 =>
          simp only [List.enumFrom, List.foldl_cons]
          exact ih2 _ _ (fillColumn_testBit_mono hashed hash64 mask _ s' g1 r i h)
      have := hmono _ _ _ hset
      simpa using this
    | succ j =>
      simp only [List.get?] at hk
      simp only [List.enumFrom, List.foldl_cons]
      have h2 := ih (n + 1) j hk
        (fillColumn hashed hash64 mask (1 <<< (7 - n)) s g0)
      have harith : n + 1 + j = n + (j + 1) := by omega
      rw [harith] at h2
      exact h2


/-- C2: with one hash function, the builder maps a pre-hashed code `x`
(or `hash64 x` for a stream that is not pre-hashed) to the single Bloom
row `x & (m-1)`, which equals `x mod m` because `m` is a power of two, and
ORs bit `1 << (7 - c%8)` of plane `c/8` at that row. -/
theorem claim2_theorem (hashed : Bool) (hash64 : ℕ → ℕ) (m pw : ℕ)
    (hm : m = 2 ^ pw) (columns : List (List (List ℕ))) (c : ℕ)
    (files : List (List ℕ)) (fl : List ℕ) (x : ℕ)
    (hc : columns.get? c = some files) (hfl : fl ∈ files) (hx : x ∈ fl) :
    ((if hashed then x else hash64 x) &&& (m - 1))
        = (if hashed then x else hash64 x) % m ∧
    (if hashed then x else hash64 x) % m < m ∧
    Nat.testBit
        (planeOf hashed hash64 m columns (c / 8)
          ((if hashed then x else hash64 x) % m))
        (7 - c % 8) = true := by
  have hand : ∀ y : ℕ, y &&& (m - 1) = y % m := by
    intro y
    rw [hm]
    exact Nat.and_pow_two_sub_one_eq_mod y pw
  refine ⟨hand _, ?_, ?_⟩
  · exact Nat.mod_lt _ (by rw [hm]; positivity)
  · have hloc : ((columns.drop (8 * (c / 8))).take 8).get? (c % 8)
        = some files := by
      rw [List.get?_take (Nat.mod_lt c (by norm_num)), List.get?_drop,
        Nat.div_add_mod c 8]
      exact hc
    have hfill := enumFromFill_testBit hashed hash64 (m - 1)
      ((columns.drop (8 * (c / 8))).take 8) 0 (c % 8) files hloc fl x hfl hx
      (fun _ => 0)
    rw [hand] at hfill
    unfold planeOf fillPlane
    have henum : ((columns.drop (8 * (c / 8))).take 8).enum
        = List.enumFrom 0 ((columns.drop (8 * (c / 8))).take 8) := rfl
    rw [henum]
    simpa using hfill

/-- C2 witness -/
theorem claim2_witness :
    (((5 : ℕ) &&& (8 - 1)) = 5 % 8 ∧ (5 : ℕ) % 8 < 8 ∧
      Nat.testBit (planeOf true (fun y => y) 8 [[[5]]] (0 / 8) ((5 : ℕ) % 8))
        (7 - 0 % 8) = true) := by
  have h := claim2_theorem true (fun y => y) 8 3 (by norm_num) [[[5]]] 0
    [[5]] [5] 5 rfl (by simp) (by simp)
  simpa using h


theorem alook_append {α : Type} (l1 l2 : List (ℕ × α)) (k : ℕ) :
    alook (l1 ++ l2) k =
      match alook l1 k with
      | some v => some v
      | none => alook l2 k := by
  induction l1 with
  | nil => simp [alook]
  | cons e l1 ih =>
    by_cases he : e.1 = k
    · simp [alook, he]
    · simp [alook, he, ih]

theorem alook_none_iff {α : Type} (l : List (ℕ × α)) (k : ℕ) :
    alook l k = none ↔ k ∉ l.map Prod.fst := by
  induction l with
  | nil => simp [alook]
  | cons e l ih =>
    by_cases he : e.1 = k
    · simp [alook, he]
    · simp only [alook, if_neg he, ih, List.map_cons, List.mem_cons]
      constructor
      · intro hn
        rintro (hc | hc)
        · exact he hc.symm
        · exact hn hc
      · intro hn hc
        exact hn (Or.inr hc)

theorem alook_isSome_of_mem {α : Type} (l : List (ℕ × α)) (k : ℕ)
    (h : k ∈ l.map Prod.fst) : ∃ v, alook l k = some v := by
  rcases ha : alook l k with _ | v
  · exact absurd h ((alook_none_iff l k).mp ha)
  · exact ⟨v, rfl⟩

theorem mem_aerase_keys {α : Type} (l : List (ℕ × α)) (c k' : ℕ)
    (h : k' ∈ (aerase l c).map Prod.fst) :
    k' ∈ l.map Prod.fst ∧ k' ≠ c := by
  unfold aerase at h
  obtain ⟨p, hp, rfl⟩ := List.mem_map.mp h
  have hm := List.mem_filter.mp hp
  exact ⟨List.mem_map.mpr ⟨p, hm.1, rfl⟩, by simpa using hm.2⟩

theorem aerase_append {α : Type} (l1 l2 : List (ℕ × α)) (k : ℕ) :
    aerase (l1 ++ l2) k = aerase l1 k ++ aerase l2 k := by
  unfold aerase
  simp [List.filter_append]

theorem keys_perm_of_alook_some {α : Type} (l : List (ℕ × α)) (k : ℕ)
    (v : α) (hnd : (l.map Prod.fst).Nodup) (h : alook l k = some v) :
    (l.map Prod.fst).Perm (k :: (aerase l k).map Prod.fst) := by
  induction l with
  | nil => simp [alook] at h
  | cons e l ih =>
    simp only [List.map_cons, List.nodup_cons] at hnd
    by_cases he : e.1 = k
    · subst he
      have hkeys : aerase (e :: l) e.1 = l := by
        unfold aerase
        rw [List.filter_cons,
          if_neg (by simp : ¬ ((decide (e.1 ≠ e.1)) = true))]
        apply List.filter_eq_self.mpr
        intro p hp
        simp only [ne_eq, decide_eq_true_eq]
        intro hc
        exact hnd.1 (by rw [← hc]; exact List.mem_map.mpr ⟨p, hp, rfl⟩)
      rw [hkeys]
      simp only [List.map_cons]
      exact List.Perm.refl _
    · simp only [alook, if_neg he] at h
      have hper := ih hnd.2 h
      have hkeys : aerase (e :: l) k = e :: aerase l k := by
        unfold aerase
        rw [List.filter_cons, if_pos (by simp [he] : (decide (e.1 ≠ k)) = true)]
      rw [hkeys]
      simp only [List.map_cons]
      exact (hper.cons e.1).trans (List.Perm.swap k e.1 _)

theorem filterMap_alook_keys {α : Type} (ids : List ℕ) (pend : List (ℕ × α))
    (h : ∀ i ∈ ids, ∃ v, alook pend i = some v) :
    (ids.filterMap (fun i => (alook pend i).map (fun v => (i, v)))).map
        Prod.fst = ids := by
  induction ids with
  | nil => rfl
  | cons i ids ih =>
    obtain ⟨v, hv⟩ := h i (by simp)
    have hfa : (fun i => Option.map (fun v => (i, v)) (alook pend i)) i
        = some (i, v) := by
      show Option.map (fun v => (i, v)) (alook pend i) = some (i, v)
      rw [hv]
      rfl
    simp only [List.filterMap_cons, hfa]
    simp only [List.map_cons]
    rw [ih (fun j hj => h j (by simp [hj]))]


theorem ser_fold_inv {α : Type} (rs : List (ℕ × α)) (st : SerState α)
    (hout : st.out.map Prod.fst = List.range st.cursor)
    (hpend : ∀ k ∈ st.pending.map Prod.fst, st.cursor ≤ k)
    (hnd : (((st.out.map Prod.fst : Multiset ℕ)
        + (st.pending.map Prod.fst : Multiset ℕ))
        + (rs.map Prod.fst : Multiset ℕ)).Nodup) :
    ((rs.foldl serStep st).out.map Prod.fst
        = List.range (rs.foldl serStep st).cursor) ∧
    (∀ k ∈ (rs.foldl serStep st).pending.map Prod.fst,
        (rs.foldl serStep st).cursor ≤ k) ∧
    (((rs.foldl serStep st).out.map Prod.fst : Multiset ℕ)
        + ((rs.foldl serStep st).pending.map Prod.fst : Multiset ℕ)
      = ((st.out.map Prod.fst : Multiset ℕ)
          + (st.pending.map Prod.fst : Multiset ℕ))
          + (rs.map Prod.fst : Multiset ℕ)) := by
  induction rs generalizing st with
  | nil =>
    refine ⟨hout, hpend, ?_⟩
    simp
  | cons r rs ih =>
    obtain ⟨id, v⟩ := r
    have hndsplit : (((st.out.map Prod.fst : Multiset ℕ)
        + (st.pending.map Prod.fst : Multiset ℕ))
        + (id ::ₘ (rs.map Prod.fst : Multiset ℕ))).Nodup := by
      simpa using hnd
    have hnd1 := (Multiset.nodup_add.mp hndsplit).1
    have hdisjm := (Multiset.nodup_add.mp hndsplit).2.2
    have hfresh1 : id ∉ st.out.map Prod.fst := by
      intro hc
      exact Multiset.disjoint_left.mp hdisjm
        (Multiset.mem_add.mpr (Or.inl (by exact_mod_cast hc)))
        (Multiset.mem_cons_self _ _)
    have hfresh2 : id ∉ st.pending.map Prod.fst := by
      intro hc
      exact Multiset.disjoint_left.mp hdisjm
        (Multiset.mem_add.mpr (Or.inr (by exact_mod_cast hc)))
        (Multiset.mem_cons_self _ _)
    have hpendnd : (st.pending.map Prod.fst).Nodup := by
      have := (Multiset.nodup_add.mp hnd1).2.1
      exact_mod_cast this
    have hcurid : st.cursor ≤ id := by
      by_contra hc
      exact hfresh1 (by rw [hout]; exact List.mem_range.mpr (by omega))
    simp only [List.foldl_cons]
    have hfinish : ∀ st' : SerState α,
        serStep st (id, v) = st' →
        st'.out.map Prod.fst = List.range st'.cursor →
        (∀ k ∈ st'.pending.map Prod.fst, st'.cursor ≤ k) →
        ((st'.out.map Prod.fst : Multiset ℕ)
            + (st'.pending.map Prod.fst : Multiset ℕ))
          = ((st.out.map Prod.fst : Multiset ℕ)
              + (st.pending.map Prod.fst : Multiset ℕ)) + {id} →
        ((rs.foldl serStep (serStep st (id, v))).out.map Prod.fst
            = List.range (rs.foldl serStep (serStep st (id, v))).cursor) ∧
        (∀ k ∈ (rs.foldl serStep (serStep st (id, v))).pending.map Prod.fst,
            (rs.foldl serStep (serStep st (id, v))).cursor ≤ k) ∧
        (((rs.foldl serStep (serStep st (id, v))).out.map Prod.fst : Multiset ℕ)
            + ((rs.foldl serStep (serStep st (id, v))).pending.map Prod.fst :
                Multiset ℕ)
          = ((st.out.map Prod.fst : Multiset ℕ)
              + (st.pending.map Prod.fst : Multiset ℕ))
              + (((id, v) :: rs).map Prod.fst : Multiset ℕ)) := by
      intro st' hstep hout' hpend' hkeq
      rw [hstep]
      have hnd' : (((st'.out.map Prod.fst : Multiset ℕ)
          + (st'.pending.map Prod.fst : Multiset ℕ))
          + (rs.map Prod.fst : Multiset ℕ)).Nodup := by
        rw [hkeq, add_assoc, Multiset.singleton_add]
        exact hndsplit
      obtain ⟨o1, o2, o3⟩ := ih st' hout' hpend' hnd'
      refine ⟨o1, o2, ?_⟩
      rw [o3, hkeq, add_assoc, Multiset.singleton_add]
      simp
    by_cases hid : id = st.cursor
    · have hstep : serStep st (id, v)
        = { st with out := st.out ++ [(id, v)], cursor := st.cursor + 1 } := by
        unfold serStep
        rw [if_pos hid]
      refine hfinish _ hstep ?_ ?_ ?_
      · show (st.out ++ [(id, v)]).map Prod.fst = List.range (st.cursor + 1)
        rw [List.map_append, hout, hid, List.range_succ]
        rfl
      · intro k hk
        have hge := hpend k hk
        have hne : k ≠ st.cursor := by
          intro hc
          rw [← hid] at hc
          exact hfresh2 (hc ▸ hk)
        show st.cursor + 1 ≤ k
        omega
      · show (((st.out ++ [(id, v)]).map Prod.fst : Multiset ℕ)
            + (st.pending.map Prod.fst : Multiset ℕ)) = _
        have hco : ((st.out ++ [(id, v)]).map Prod.fst : Multiset ℕ)
            = (st.out.map Prod.fst : Multiset ℕ) + {id} := by
          rw [List.map_append, ← Multiset.coe_add]
          simp
        rw [hco, add_right_comm]
    · rcases halook : alook (st.pending ++ [(id, v)]) st.cursor with _ | v'
      · have hstep : serStep st (id, v)
            = { st with pending := st.pending ++ [(id, v)] } := by
          unfold serStep
          rw [if_neg hid, halook]
        refine hfinish _ hstep hout ?_ ?_
        · intro k hk
          show st.cursor ≤ k
          rw [List.map_append] at hk
          rcases List.mem_append.mp hk with hk | hk
          · exact hpend k hk
          · simp at hk
            omega
        · show ((st.out.map Prod.fst : Multiset ℕ)
              + ((st.pending ++ [(id, v)]).map Prod.fst : Multiset ℕ)) = _
          have hco : ((st.pending ++ [(id, v)]).map Prod.fst : Multiset ℕ)
              = (st.pending.map Prod.fst : Multiset ℕ) + {id} := by
            rw [List.map_append, ← Multiset.coe_add]
            simp
          rw [hco, ← add_assoc]
      · have hstep : serStep st (id, v)
            = { pending := aerase (st.pending ++ [(id, v)]) st.cursor,
                cursor := st.cursor + 1,
                out := st.out ++ [(st.cursor, v')] } := by
          unfold serStep
          rw [if_neg hid, halook]
        have happnd : ((st.pending ++ [(id, v)]).map Prod.fst).Nodup := by
          rw [List.map_append]
          rw [List.nodup_append]
          refine ⟨hpendnd, by simp, ?_⟩
          intro a ha
          simp only [List.map_cons, List.map_nil, List.mem_singleton]
          intro hc
          subst hc
          exact hfresh2 ha
        have hperm := keys_perm_of_alook_some (st.pending ++ [(id, v)])
          st.cursor v' happnd halook
        have hcoe : ((st.pending ++ [(id, v)]).map Prod.fst : Multiset ℕ)
            = st.cursor ::ₘ
                ((aerase (st.pending ++ [(id, v)]) st.cursor).map Prod.fst :
                  Multiset ℕ) := by
          have := Multiset.coe_eq_coe.mpr hperm
          simpa using this
        refine hfinish _ hstep ?_ ?_ ?_
        · show (st.out ++ [(st.cursor, v')]).map Prod.fst
            = List.range (st.cursor + 1)
          rw [List.map_append, hout, List.range_succ]
          rfl
        · intro k hk
          show st.cursor + 1 ≤ k
          have hker := mem_aerase_keys _ _ _ hk
          rw [List.map_append] at hker
          rcases List.mem_append.mp hker.1 with hkm | hkm
          · have := hpend k hkm
            have := hker.2
            omega
          · simp at hkm
            subst hkm
            omega
        · show (((st.out ++ [(st.cursor, v')]).map Prod.fst : Multiset ℕ)
              + ((aerase (st.pending ++ [(id, v)]) st.cursor).map Prod.fst :
                  Multiset ℕ)) = _
          have hstep2 : ((st.pending.map Prod.fst : Multiset ℕ) + {id})
              = ({st.cursor} : Multiset ℕ)
                + ((aerase (st.pending ++ [(id, v)]) st.cursor).map Prod.fst :
                    Multiset ℕ) := by
            rw [Multiset.singleton_add, ← hcoe, List.map_append,
              ← Multiset.coe_add]
            simp
          have hoco : ((st.out ++ [(st.cursor, v')]).map Prod.fst : Multiset ℕ)
              = (st.out.map Prod.fst : Multiset ℕ) + {st.cursor} := by
            rw [List.map_append, ← Multiset.coe_add]
            simp
          rw [hoco]
          calc ((st.out.map Prod.fst : Multiset ℕ) + {st.cursor})
                + ((aerase (st.pending ++ [(id, v)]) st.cursor).map Prod.fst :
                    Multiset ℕ)
              = (st.out.map Prod.fst : Multiset ℕ)
                + (({st.cursor} : Multiset ℕ)
                  + ((aerase (st.pending ++ [(id, v)]) st.cursor).map
                      Prod.fst : Multiset ℕ)) := by
                rw [add_assoc]
            _ = (st.out.map Prod.fst : Multiset ℕ)
                + ((st.pending.map Prod.fst : Multiset ℕ) + {id}) := by
                rw [hstep2]
            _ = ((st.out.map Prod.fst : Multiset ℕ)
                + (st.pending.map Prod.fst : Multiset ℕ)) + {id} := by
                rw [add_assoc]


theorem serialize_keys {α : Type} (n : ℕ) (rs : List (ℕ × α))
    (hperm : (rs.map Prod.fst).Perm (List.range n)) :
    (serialize rs).map Prod.fst = List.range n := by
  have hndrs : (rs.map Prod.fst).Nodup :=
    hperm.nodup_iff.mpr (List.nodup_range n)
  obtain ⟨hout, hpend, hsum⟩ := ser_fold_inv rs ⟨[], 0, []⟩ (by simp) (by simp)
    (by simpa using hndrs)
  set stF := rs.foldl serStep (⟨[], 0, []⟩ : SerState α) with hstF
  simp only [List.map_nil] at hsum
  have hsum' : ((stF.out.map Prod.fst : Multiset ℕ)
      + (stF.pending.map Prod.fst : Multiset ℕ))
      = (List.range n : Multiset ℕ) := by
    rw [hsum]
    have := Multiset.coe_eq_coe.mpr hperm
    simpa using this
  have hcle : stF.cursor ≤ n := by
    have hcard := congrArg Multiset.card hsum'
    simp only [Multiset.card_add, Multiset.coe_card, List.length_map,
      List.length_range] at hcard
    have hlo : stF.out.length = stF.cursor := by
      have := congrArg List.length hout
      simpa using this
    omega
  have hsplit : (List.range n : Multiset ℕ)
      = (List.range stF.cursor : Multiset ℕ)
        + (List.range' stF.cursor (n - stF.cursor) : Multiset ℕ) := by
    rw [Multiset.coe_add, Multiset.coe_eq_coe]
    have harr : List.range stF.cursor ++ List.range' stF.cursor (n - stF.cursor)
        = List.range n := by
      rw [List.range_eq_range', List.range_eq_range']
      have := List.range'_append 0 stF.cursor (n - stF.cursor) 1
      simp only [one_mul, zero_add] at this
      rw [this]
      congr 1
      omega
    rw [harr]
  have hpendm : (stF.pending.map Prod.fst : Multiset ℕ)
      = (List.range' stF.cursor (n - stF.cursor) : Multiset ℕ) := by
    have h1 : (stF.out.map Prod.fst : Multiset ℕ)
        = (List.range stF.cursor : Multiset ℕ) := by
      rw [hout]
    have := hsum'
    rw [h1, hsplit] at this
    exact add_left_cancel this
  have hpendperm : (stF.pending.map Prod.fst).Perm
      (List.range' stF.cursor (n - stF.cursor)) :=
    Multiset.coe_eq_coe.mp hpendm
  -- the sorted id list of the flush equals the missing range
  have hperm2 : ((stF.pending.map Prod.fst).mergeSort
      (fun a b => a ≤ b)).Perm (List.range' stF.cursor (n - stF.cursor)) :=
    (List.mergeSort_perm (stF.pending.map Prod.fst) _).trans hpendperm
  have hsorted : List.Sorted (· ≤ ·)
      ((stF.pending.map Prod.fst).mergeSort (fun a b => a ≤ b)) := by
    have := @List.sorted_mergeSort ℕ
      (fun a b : ℕ => decide (a ≤ b))
      (fun a b c hab hbc => by
        simp only [decide_eq_true_eq] at hab hbc ⊢
        omega)
      (fun a b => by
        simp only [Bool.or_eq_true, decide_eq_true_eq]
        omega)
      (stF.pending.map Prod.fst)
    exact this.imp (by simp)
  have hsortedrange : List.Sorted (· ≤ ·)
      (List.range' stF.cursor (n - stF.cursor)) :=
    (List.pairwise_lt_range' _ _).imp (fun h => le_of_lt h)
  have hids : (stF.pending.map Prod.fst).mergeSort (fun a b => a ≤ b)
      = List.range' stF.cursor (n - stF.cursor) :=
    List.eq_of_perm_of_sorted hperm2 hsorted hsortedrange
  show (serFlush stF).map Prod.fst = List.range n
  unfold serFlush
  rw [List.map_append, hout, hids]
  rw [filterMap_alook_keys _ _ (fun i hi => alook_isSome_of_mem _ _ (by
    have : i ∈ List.range' stF.cursor (n - stF.cursor) := hi
    exact hpendperm.symm.subset this))]
  rw [List.range_eq_range', List.range_eq_range']
  have := List.range'_append 0 stF.cursor (n - stF.cursor) 1
  simp only [one_mul, zero_add] at this
  rw [this]
  congr 1
  omega


theorem mem_recordStream_keys {β : Type} (out : List (ℕ × List β)) (k : ℕ)
    (h : k ∈ (recordStream out).map Prod.fst) : k ∈ out.map Prod.fst := by
  unfold recordStream at h
  obtain ⟨q, hq, rfl⟩ := List.mem_map.mp h
  obtain ⟨p, hp, hq2⟩ := List.mem_flatMap.mp hq
  obtain ⟨rec, _, rfl⟩ := List.mem_map.mp hq2
  exact List.mem_map.mpr ⟨p, hp, rfl⟩

theorem recordStream_sorted {β : Type} (out : List (ℕ × List β))
    (h : List.Sorted (· < ·) (out.map Prod.fst)) :
    List.Sorted (· ≤ ·) ((recordStream out).map Prod.fst) := by
  induction out with
  | nil => simp [recordStream]
  | cons p rest ih =>
    simp only [List.map_cons, List.sorted_cons] at h
    have hstep : recordStream (p :: rest)
        = p.2.map (fun rec => (p.1, rec)) ++ recordStream rest := by
      unfold recordStream
      simp
    rw [hstep, List.map_append]
    rw [List.Sorted, List.pairwise_append]
    refine ⟨?_, ih h.2, ?_⟩
    · rw [List.map_map]
      have htriv : ∀ (l : List β),
          List.Pairwise (fun (_ _ : β) => p.1 ≤ p.1) l := by
        intro l
        induction l with
        | nil => simp
        | cons a l ihl => exact List.Pairwise.cons (fun _ _ => le_refl _) ihl
      exact List.pairwise_map.mpr (htriv p.2)
    · intro a ha b hb
      have hA : a = p.1 := by
        rw [List.map_map] at ha
        obtain ⟨rec, _, rfl⟩ := List.mem_map.mp ha
        rfl
      have hB : b ∈ rest.map Prod.fst := mem_recordStream_keys rest b hb
      rw [hA]
      exact le_of_lt (h.1 b hB)


/-- C3: with keep_order on (hardwired true in searchCmd), the serializer emits
query results in strictly ascending QueryIdx order regardless of the order in
which worker results arrive: if the worker results carry query indices that are
a permutation of 0..n-1, the serialized output lists queries exactly in the
order 0,1,...,n-1, so each query's hit records are contiguous and every record
of query q precedes every record of query q+1. -/
theorem claim3_theorem {β : Type} (n : ℕ) (rs : List (ℕ × List β))
    (h : (rs.map Prod.fst).Perm (List.range n)) :
    (serialize rs).map Prod.fst = List.range n ∧
    List.Sorted (· ≤ ·) ((recordStream (serialize rs)).map Prod.fst) := by
  have h1 := serialize_keys n rs h
  refine ⟨h1, recordStream_sorted _ ?_⟩
  rw [h1]
  exact List.pairwise_lt_range n

theorem claim3_witness :
    (([((1:ℕ),[(10:ℕ)]),(0,[20,30]),(2,[])].map Prod.fst).Perm (List.range 3)) ∧
    ((serialize [((1:ℕ),[(10:ℕ)]),(0,[20,30]),(2,[])]).map Prod.fst = List.range 3 ∧
     List.Sorted (· ≤ ·)
       ((recordStream (serialize [((1:ℕ),[(10:ℕ)]),(0,[20,30]),(2,[])])).map Prod.fst)) :=
  ⟨by decide, claim3_theorem 3 _ (by decide)⟩

theorem bbEmit_outPref (st : BatchState) (o : List (List ℕ)) (h : st.out = o) :
    o <+: (bbEmit st).out := by
  subst h
  unfold bbEmit
  split_ifs <;> simp

theorem bbStep_outPref (T8 TX : ℕ) (st : BatchState) (g : ℕ) :
    st.out <+: (bbStep T8 TX st g).out := by
  unfold bbStep
  rcases hl : st.last with _ | l <;>
    dsimp only <;>
    split_ifs <;>
    first
      | exact List.prefix_rfl
      | exact bbEmit_outPref _ _ rfl

theorem bbFinish_outPref (st : BatchState) : st.out <+: (bbFinish st).out := by
  unfold bbFinish
  rcases hl : st.last with _ | l <;>
    dsimp only <;>
    split_ifs <;>
    first
      | exact List.prefix_rfl
      | exact bbEmit_outPref _ _ rfl

theorem bbEmit_done (st : BatchState) (hd : st.done = false)
    (h : st.last = none → st.batch ≠ []) : (bbEmit st).done = false := by
  unfold bbEmit
  split_ifs with h1 h2
  · exact absurd h1 (h h2)
  · exact hd
  · exact hd

theorem bbStep_done (T8 TX : ℕ) (st : BatchState) (g : ℕ)
    (hd : st.done = false) : (bbStep T8 TX st g).done = false := by
  unfold bbStep
  rcases hl : st.last with _ | l <;>
    dsimp only <;>
    split_ifs <;>
    first
      | exact hd
      | exact bbEmit_done _ hd (by simp)

theorem bbFold_done (T8 TX : ℕ) (gs : List ℕ) (st : BatchState)
    (hd : st.done = false) : (gs.foldl (bbStep T8 TX) st).done = false := by
  induction gs generalizing st with
  | nil => exact hd
  | cons a l ih => exact ih _ (bbStep_done T8 TX st a hd)

/-- Invariant for the sticky `flag`: group count `g` already owns a
singleton block, or it is the deferred group of a `flag` state with an
empty batch. -/
def bbOwn (g : ℕ) (st : BatchState) : Prop :=
  [g] ∈ st.out ∨
    (st.last = some g ∧ st.batch = [] ∧ st.flag = true ∧ st.done = false)

theorem bbEmit_some (st : BatchState) (g : ℕ) (hl : st.last = some g)
    (hf : st.flag = true) (hd : st.done = false) :
    (bbEmit st).last = some g ∧ (bbEmit st).batch = [] ∧
      (bbEmit st).flag = true ∧ (bbEmit st).done = false := by
  unfold bbEmit
  split_ifs with h1 h2
  · rw [hl] at h2; exact absurd h2 (by simp)
  · exact ⟨hl, h1, hf, hd⟩
  · exact ⟨hl, rfl, hf, hd⟩

theorem bbStep_est (T8 TX g : ℕ) (hT : T8 ≤ TX) (hg : TX < g)
    (st : BatchState) (hd : st.done = false) : bbOwn g (bbStep T8 TX st g) := by
  have hg0 : ¬ g = 0 := by omega
  have hg8 : T8 < g := by omega
  unfold bbStep
  rw [hd]
  rcases hl : st.last with _ | l <;>
    dsimp only <;>
    rw [if_neg (by simp), if_neg hg0] <;>
    split_ifs <;>
    first
      | exact Or.inr (bbEmit_some _ g rfl rfl rfl)
      | exact Or.inr (bbEmit_some _ g rfl (by assumption) rfl)
      | exact Or.inr (bbEmit_some _ g rfl rfl hd)
      | exact Or.inr (bbEmit_some _ g rfl (by assumption) hd)

theorem bbEmit_out_mem (st : BatchState) (h : ¬ st.batch = []) :
    (bbEmit st).out = st.out ++ [st.batch] := by
  unfold bbEmit
  rw [if_neg h]

theorem bbStep_pres (T8 TX g : ℕ) (st : BatchState) (g' : ℕ)
    (h : bbOwn g st) : bbOwn g (bbStep T8 TX st g') := by
  rcases h with h | ⟨h1, h2, h3, h4⟩
  · exact Or.inl ((bbStep_outPref T8 TX st g').subset h)
  · by_cases hg0 : g' = 0
    · unfold bbStep
      rw [if_neg (by rw [h4]; simp), if_pos hg0]
      exact Or.inr ⟨h1, h2, h3, h4⟩
    · unfold bbStep
      rw [if_neg (by rw [h4]; simp), if_neg hg0, h1]
      dsimp only
      rw [if_pos (by rw [h3]; simp), if_pos h3]
      refine Or.inl ?_
      rw [bbEmit_out_mem _ (by simp)]
      simp [h2]

theorem bbFold_own (T8 TX g : ℕ) (gs : List ℕ) (st : BatchState)
    (h : bbOwn g st) : bbOwn g (gs.foldl (bbStep T8 TX) st) := by
  induction gs generalizing st with
  | nil => exact h
  | cons a l ih => exact ih _ (bbStep_pres T8 TX g st a h)

theorem bbFinish_own (g : ℕ) (st : BatchState) (h : bbOwn g st) :
    [g] ∈ (bbFinish st).out := by
  rcases h with h | ⟨h1, h2, h3, h4⟩
  · exact (bbFinish_outPref st).subset h
  · unfold bbFinish
    rw [if_neg (by rw [h4]; simp), if_pos (by rw [h3]; simp), h1]
    dsimp only
    rw [bbEmit_out_mem _ (by simp)]
    simp [h2]

theorem bbRun_singleton (T8 TX sB : ℕ) (hT : T8 ≤ TX) (gs : List ℕ) (g : ℕ)
    (hmem : g ∈ gs) (hg : TX < g) : [g] ∈ bbRun T8 TX sB gs := by
  obtain ⟨s, t, rfl⟩ := List.append_of_mem hmem
  unfold bbRun
  rw [List.foldl_append, List.foldl_cons]
  exact bbFinish_own g _ (bbFold_own T8 TX g t _
    (bbStep_est T8 TX g hT hg _ (bbFold_done T8 TX s _ rfl)))

theorem chunkList_nil {α : Type} (n : ℕ) : chunkList n ([] : List α) = [] := by
  cases n <;> rw [chunkList.eq_def]

theorem chunkList_short {α : Type} (n : ℕ) (l : List α) (h0 : l ≠ [])
    (h : l.length ≤ n) : chunkList n l = [l] := by
  rcases l with _ | ⟨a, l⟩
  · exact absurd rfl h0
  · rcases n with _ | n
    · simp at h
    · rw [chunkList.eq_def]
      dsimp only
      have h1 : l.length ≤ n := by simpa using h
      rw [List.take_of_length_le h1, List.drop_eq_nil_of_le h1, chunkList_nil]

theorem chunkList_cons_of_length {α : Type} (n : ℕ) (hn : 0 < n)
    (l rest : List α) (h : l.length = n) :
    chunkList n (l ++ rest) = l :: chunkList n rest := by
  rcases n with _ | n
  · omega
  · rcases l with _ | ⟨a, l⟩
    · simp at h
    · have hm : l.length = n := by simpa using h
      show chunkList (n + 1) (a :: (l ++ rest)) = _
      rw [chunkList.eq_def]
      dsimp only
      rw [List.take_left' hm, List.drop_left' hm]

theorem bbStep_small (T8 TX : ℕ) (hT : T8 ≤ TX) (st : BatchState) (g : ℕ)
    (hd : st.done = false) (hl : st.last = none) (hf : st.flag = false)
    (hg : 0 < g) (hgT : g ≤ T8) :
    bbStep T8 TX st g =
      if (st.batch ++ [g]).length < st.sBlock
      then { st with batch := st.batch ++ [g] }
      else bbEmit { st with batch := st.batch ++ [g] } := by
  have hf8 : st.flag8 = true ∨ st.flag8 = false := by
    cases st.flag8 <;> simp
  unfold bbStep
  rw [if_neg (by rw [hd]; simp), if_neg (by omega), hl]
  rcases hf8 with hf8 | hf8
  · rw [if_pos (by rw [hf, hf8]; simp)]
    dsimp only
    rw [if_neg (by simp [hf]), if_neg (by omega), hl]
  · rw [if_neg (by simp [hf, hf8]), if_neg (by omega)]

theorem bbFold_chunk (T8 TX : ℕ) (hT : T8 ≤ TX) :
    ∀ (gs : List ℕ) (st : BatchState), (∀ g ∈ gs, 0 < g ∧ g ≤ T8) →
      st.done = false → st.last = none → st.flag = false →
      st.batch.length < st.sBlock →
      (bbFinish (gs.foldl (bbStep T8 TX) st)).out
        = st.out ++ chunkList st.sBlock (st.batch ++ gs) := by
  intro gs
  induction gs with
  | nil =>
    intro st hgs hd hl hf hlen
    rw [List.foldl_nil, List.append_nil]
    unfold bbFinish
    rw [if_neg (by rw [hd]; simp), hl]
    dsimp only
    rw [ite_self]
    by_cases hb : st.batch = []
    · rw [hb, chunkList_nil, List.append_nil]
      unfold bbEmit
      rw [if_pos hb, if_pos hl]
    · rw [bbEmit_out_mem _ hb, chunkList_short _ _ hb (le_of_lt hlen)]
  | cons g l ih =>
    intro st hgs hd hl hf hlen
    obtain ⟨hg, hgT⟩ := hgs g (List.mem_cons_self g l)
    rw [List.foldl_cons, bbStep_small T8 TX hT st g hd hl hf hg hgT]
    by_cases hc : (st.batch ++ [g]).length < st.sBlock
    · rw [if_pos hc]
      rw [ih { st with batch := st.batch ++ [g] }
        (fun x hx => hgs x (List.mem_cons_of_mem _ hx)) hd hl hf hc]
      rw [List.append_cons st.batch g l]
    · rw [if_neg hc]
      have hemit : bbEmit { st with batch := st.batch ++ [g] }
          = { st with out := st.out ++ [st.batch ++ [g]], batch := [] } := by
        unfold bbEmit
        rw [if_neg (by simp)]
      have hlg : (st.batch ++ [g]).length = st.sBlock := by
        simp only [List.length_append, List.length_cons, List.length_nil] at hc ⊢
        omega
      rw [hemit]
      rw [ih { st with out := st.out ++ [st.batch ++ [g]], batch := [] }
        (fun x hx => hgs x (List.mem_cons_of_mem _ hx)) hd hl hf
        (by simp only [List.length_nil]; omega)]
      rw [List.append_cons st.batch g l,
        chunkList_cons_of_length _ (by omega) _ _ hlg]
      dsimp only
      rw [List.nil_append]
      rw [List.append_cons st.out (st.batch ++ [g]) (chunkList st.sBlock l)]

theorem bbRun_flag8 (T8 TX sB : ℕ) (hT : T8 ≤ TX) (g0 : ℕ) (rest : List ℕ)
    (h0 : T8 < g0) (h0X : g0 ≤ TX)
    (hrest : ∀ g ∈ rest, 0 < g ∧ g ≤ T8) :
    bbRun T8 TX sB (g0 :: rest) = chunkList 8 (g0 :: rest) := by
  unfold bbRun
  rw [List.foldl_cons]
  have h1 : bbStep T8 TX ⟨[], sB, false, false, none, [], false⟩ g0
      = ⟨[], 8, true, false, some g0, [], false⟩ := by
    unfold bbStep
    rw [if_neg (by simp), if_neg (by omega), if_neg (by simp),
      if_pos h0, if_neg (by omega)]
    unfold bbEmit
    rw [if_pos (by simp), if_neg (by simp)]
  rw [h1]
  rcases rest with _ | ⟨g1, rest'⟩
  · rw [List.foldl_nil]
    unfold bbFinish
    rw [if_neg (by simp), if_pos (by simp)]
    dsimp only
    rw [bbEmit_out_mem _ (by simp)]
    rw [chunkList_short 8 [g0] (by simp) (by simp)]
    simp
  · obtain ⟨hg1, hg1T⟩ := hrest g1 (List.mem_cons_self g1 rest')
    rw [List.foldl_cons]
    have h2 : bbStep T8 TX ⟨[], 8, true, false, some g0, [], false⟩ g1
        = ⟨[g0, g1], 8, true, false, none, [], false⟩ := by
      unfold bbStep
      rw [if_neg (by simp), if_neg (by omega), if_pos (by simp)]
      dsimp only
      rw [if_neg (by simp), if_neg (by omega)]
      rw [if_pos (by simp)]
      simp
    rw [h2]
    rw [bbFold_chunk T8 TX hT rest' ⟨[g0, g1], 8, true, false, none, [], false⟩
      (fun x hx => hrest x (List.mem_cons_of_mem _ hx)) rfl rfl rfl (by simp)]
    simp

/-- C5 counterexample: with thresholds T8 = 10 and TX = 100, an initial
block size of 32, and groups [200, 50, 1, ..., 1], the 50-k-mer group
exceeds T8 but not TX, yet because the sticky `flag` was already set by
the 200 group, the block size is never "reduced to 8": every subsequent
group becomes a singleton block, and no block of eight 1-groups exists. -/
theorem claim5_counterexample :
    bbRun 10 100 32 [200, 50, 1, 1, 1, 1, 1, 1, 1, 1, 1]
      = [[200], [50], [1], [1], [1], [1], [1], [1], [1], [1], [1]] ∧
    ¬ [1, 1, 1, 1, 1, 1, 1, 1] ∈ bbRun 10 100 32 [200, 50, 1, 1, 1, 1, 1, 1, 1, 1, 1] := by
  decide

/-- C5 (corrected): in the index-build batching loop with thresholds
T8 ≤ TX and initial block size sB: (i) a group whose k-mer count exceeds
TX always becomes a block of its own; (ii) as long as every group count
is positive and at most T8, batches are closed exactly at the block size
sB; (iii) when the FIRST group exceeds T8 but not TX and all later groups
are positive and at most T8, the block size is reduced to 8 for all
subsequent batches.  (The unconditional reduction to 8 claimed by the
spec fails once a group above TX has been seen: the sticky `flag` then
turns every later group into a singleton block.) -/
theorem claim5_theorem (T8 TX sB : ℕ) (gs : List ℕ) (hT : T8 ≤ TX) :
    (∀ g ∈ gs, TX < g → [g] ∈ bbRun T8 TX sB gs) ∧
    (0 < sB → (∀ g ∈ gs, 0 < g ∧ g ≤ T8) → bbRun T8 TX sB gs = chunkList sB gs) ∧
    (∀ g0 rest, gs = g0 :: rest → T8 < g0 → g0 ≤ TX →
      (∀ g ∈ rest, 0 < g ∧ g ≤ T8) → bbRun T8 TX sB gs = chunkList 8 gs) := by
  refine ⟨fun g hm hg => bbRun_singleton T8 TX sB hT gs g hm hg, ?_, ?_⟩
  · intro hsB hall
    unfold bbRun
    rw [bbFold_chunk T8 TX hT gs ⟨[], sB, false, false, none, [], false⟩ hall
      rfl rfl rfl (by simpa using hsB)]
    simp
  · intro g0 rest hgs h0 h0X hrest
    subst hgs
    exact bbRun_flag8 T8 TX sB hT g0 rest h0 h0X hrest

/-- C5 witness -/
theorem claim5_witness :
    (2 : ℕ) ≤ 5 ∧
    ((∀ g ∈ [7, 1, 1, 1, 1], 5 < g → [g] ∈ bbRun 2 5 3 [7, 1, 1, 1, 1]) ∧
     (0 < 3 → (∀ g ∈ [7, 1, 1, 1, 1], 0 < g ∧ g ≤ 2) →
       bbRun 2 5 3 [7, 1, 1, 1, 1] = chunkList 3 [7, 1, 1, 1, 1]) ∧
     (∀ g0 rest, [7, 1, 1, 1, 1] = g0 :: rest → 2 < g0 → g0 ≤ 5 →
       (∀ g ∈ rest, 0 < g ∧ g ≤ 2) →
       bbRun 2 5 3 [7, 1, 1, 1, 1] = chunkList 8 [7, 1, 1, 1, 1])) :=
  ⟨by decide, claim5_theorem 2 5 3 [7, 1, 1, 1, 1] (by decide)⟩

end Kmcp
